import Mathlib

/-!
# Verification of the pysuca TEI normalization pipeline

A shallow embedding of `src/pysuca/utils.py` (the `write_tei` function and
its nested helpers `_sort_attrs`, `_iter`, `_format_paragraph`,
`_format_texts` / `_format`), together with theorems settling the frozen
claims about the spec.

Python strings are modelled as `List Char`; Python `None`-able strings as
`Option (List Char)`; `lxml` elements as an inductive tree `Elem` with a
qualified tag, an ordered attribute list, optional text, ordered children
and optional tail text.  Python integers that reach `" " * n` are modelled
as `Int` (`" " * n` is empty for `n ≤ 0`, matching `Int.toNat`).
-/

namespace Pysuca

/-- Python strings, modelled as lists of characters. -/
abbrev Str := List Char

/-- The six ASCII characters for which Python's `str.isspace`, `str.strip`
and no-argument `str.split` treat a character as whitespace
(`' '`, `'\t'`, `'\n'`, `'\r'`, `'\x0b'`, `'\x0c'`). -/
def pyIsSpace (c : Char) : Bool :=
  c == ' ' || c == '\t' || c == '\n' || c == '\r' || c == '\x0b' || c == '\x0c'

/-- One step of the right fold implementing Python's whitespace `str.split`:
the state is the word currently being accumulated (reading right to left)
together with the finished words to its right. -/
def splitStep (c : Char) : Str × List Str → Str × List Str
  | (cur, ws) =>
    if pyIsSpace c then ([], if cur = [] then ws else cur :: ws)
    else (c :: cur, ws)

/-- The fold state of `pySplit` over a string. -/
def splitState (s : Str) : Str × List Str :=
  s.foldr splitStep ([], [])

/-- Python's `str.split()` with no argument: maximal runs of
non-whitespace characters, in order; never produces empty words. -/
def pySplit (s : Str) : List Str :=
  let st := splitState s
  if st.1 = [] then st.2 else st.1 :: st.2

/-- Python's `str.strip()`: remove leading and trailing whitespace. -/
def pyStrip (s : Str) : Str :=
  ((s.dropWhile pyIsSpace).reverse.dropWhile pyIsSpace).reverse

/-- Python's `" " * n` (empty for `n ≤ 0`). -/
def spacesStr (n : Int) : Str := List.replicate n.toNat ' '

/-- The word list `_format_paragraph` computes:
`paragraph.replace("\n", "").strip().split()`.  `replace("\n", "")`
deletes every newline character. -/
def wordsOf (paragraph : Str) : List Str :=
  pySplit (pyStrip (paragraph.filter (fun c => c ≠ '\n')))

/-- The greedy line-packing loop of `_format_paragraph`, operating on the
already-computed word list.  The fold state is `(s, row)`: the output
accumulated so far and the line under construction.  A row longer than 60
characters is flushed (stripped, followed by a newline and `spaces` spaces)
before the next word starts a fresh row; otherwise the word is appended to
the row after a space.  Finally a non-blank residual row is flushed followed
by a newline and `spaces - 2` spaces. -/
def paraStep (spaces : Int) (acc : Str × Str) (word : Str) : Str × Str :=
  if 60 < acc.2.length then
    (acc.1 ++ pyStrip acc.2 ++ '\n' :: spacesStr spaces, word)
  else (acc.1, acc.2 ++ ' ' :: word)

def buildPara (words : List Str) (spaces : Int) : Str :=
  let s0 : Str := '\n' :: spacesStr spaces
  let fin := words.foldl (paraStep spaces) (s0, [])
  if 0 < (pyStrip fin.2).length then
    fin.1 ++ pyStrip fin.2 ++ '\n' :: spacesStr (spaces - 2)
  else fin.1

/-- `_format_paragraph(paragraph, spaces)` from `src/pysuca/utils.py`:
collapse newlines (by deletion), split into words, then greedily pack the
words into indented lines.  (The `if s.strip() == "": return None` lines in
the source are commented out and therefore not part of the function.) -/
def formatParagraph (paragraph : Str) (spaces : Int) : Str :=
  buildPara (wordsOf paragraph) spaces

/-! ## Lemmas about `pySplit` and `pyStrip` -/

theorem pySplit_nil : pySplit [] = [] := rfl

theorem splitState_cons (c : Char) (s : Str) :
    splitState (c :: s) = splitStep c (splitState s) := rfl

theorem splitState_cons_space {c : Char} (hc : pyIsSpace c) (s : Str) :
    splitState (c :: s) = ([], pySplit s) := by
  rw [splitState_cons]
  rcases h : splitState s with ⟨cur, ws⟩
  simp only [splitStep, hc, if_true, pySplit, h]

theorem splitState_cons_nonspace {c : Char} (hc : ¬ pyIsSpace c) (s : Str) :
    splitState (c :: s) = (c :: (splitState s).1, (splitState s).2) := by
  rw [splitState_cons]
  rcases h : splitState s with ⟨cur, ws⟩
  simp only [splitStep, hc, if_false, Bool.false_eq_true]

theorem pySplit_cons_space {c : Char} (hc : pyIsSpace c) (s : Str) :
    pySplit (c :: s) = pySplit s := by
  simp only [pySplit, splitState_cons_space hc]
  simp

theorem pySplit_cons_nonspace_ne_nil {c : Char} (hc : ¬ pyIsSpace c) (s : Str) :
    pySplit (c :: s) ≠ [] := by
  simp only [pySplit, splitState_cons_nonspace hc]
  simp

theorem splitState_append (a b : Str) :
    splitState (a ++ b) = a.foldr splitStep (splitState b) := by
  simp [splitState, List.foldr_append]

/-- Appending finished words to the right of the fold only appends them to
the word list of the state. -/
theorem foldr_splitStep_absorb (a : Str) (L : List Str) :
    a.foldr splitStep ([], L) = ((splitState a).1, (splitState a).2 ++ L) := by
  induction a with
  | nil => simp [splitState]
  | cons c a ih =>
    rw [List.foldr_cons, ih, splitState_cons]
    rcases h : splitState a with ⟨cur, ws⟩
    by_cases hc : pyIsSpace c
    · simp only [splitStep, hc, if_true]
      by_cases hcur : cur = [] <;> simp [hcur]
    · simp only [splitStep, hc, if_false, Bool.false_eq_true]

/-- Splitting across a whitespace character splits independently on each
side. -/
theorem pySplit_append_space {c : Char} (hc : pyIsSpace c) (a b : Str) :
    pySplit (a ++ c :: b) = pySplit a ++ pySplit b := by
  have h1 : splitState (a ++ c :: b) = ((splitState a).1, (splitState a).2 ++ pySplit b) := by
    rw [splitState_append, splitState_cons_space hc, foldr_splitStep_absorb]
  simp only [pySplit, h1]
  by_cases hcur : (splitState a).1 = [] <;> simp [hcur]

theorem splitState_allspace {b : Str} (hb : ∀ c ∈ b, pyIsSpace c) :
    splitState b = ([], []) := by
  induction b with
  | nil => rfl
  | cons c b ih =>
    rw [splitState_cons, ih (fun x hx => hb x (List.mem_cons_of_mem _ hx))]
    simp [splitStep, hb c (List.mem_cons_self c b)]

theorem pySplit_allspace {b : Str} (hb : ∀ c ∈ b, pyIsSpace c) :
    pySplit b = [] := by
  simp [pySplit, splitState_allspace hb]

/-- An all-whitespace suffix does not contribute any word. -/
theorem pySplit_append_allspace {b : Str} (hb : ∀ c ∈ b, pyIsSpace c) (a : Str) :
    pySplit (a ++ b) = pySplit a := by
  have h : splitState (a ++ b) = splitState a := by
    rw [splitState_append, splitState_allspace hb]; rfl
  simp [pySplit, h]

/-- An all-whitespace prefix does not contribute any word. -/
theorem pySplit_prepend_allspace {a : Str} (ha : ∀ c ∈ a, pyIsSpace c) (b : Str) :
    pySplit (a ++ b) = pySplit b := by
  induction a with
  | nil => simp
  | cons c a ih =>
    rw [List.cons_append, pySplit_cons_space (ha c (List.mem_cons_self c a))]
    exact ih (fun x hx => ha x (List.mem_cons_of_mem _ hx))

theorem splitState_word {w : Str} (hw : ∀ c ∈ w, ¬ pyIsSpace c) :
    splitState w = (w, []) := by
  induction w with
  | nil => rfl
  | cons c w ih =>
    rw [splitState_cons, ih (fun x hx => hw x (List.mem_cons_of_mem _ hx))]
    simp [splitStep, hw c (List.mem_cons_self c w)]

/-- A nonempty run of non-whitespace characters splits into itself. -/
theorem pySplit_word {w : Str} (hw : ∀ c ∈ w, ¬ pyIsSpace c) (hne : w ≠ []) :
    pySplit w = [w] := by
  simp [pySplit, splitState_word hw, hne]

/-- Every word produced by `pySplit` is nonempty and whitespace-free. -/
theorem pySplit_wordOK (s : Str) :
    ∀ w ∈ pySplit s, w ≠ [] ∧ ∀ c ∈ w, ¬ pyIsSpace c := by
  have key : ∀ s : Str, (∀ c ∈ (splitState s).1, ¬ pyIsSpace c) ∧
      (∀ w ∈ (splitState s).2, w ≠ [] ∧ ∀ c ∈ w, ¬ pyIsSpace c) := by
    intro s
    induction s with
    | nil => simp [splitState]
    | cons c s ih =>
      rw [splitState_cons]
      rcases h : splitState s with ⟨cur, ws⟩
      rw [h] at ih
      by_cases hc : pyIsSpace c
      · simp only [splitStep, hc, if_true]
        refine ⟨by simp, ?_⟩
        by_cases hcur : cur = []
        · simpa [hcur] using ih.2
        · intro w hw
          rw [if_neg hcur] at hw
          rcases List.mem_cons.mp hw with h' | h'
          · exact h' ▸ ⟨hcur, ih.1⟩
          · exact ih.2 w h'
      · simp only [splitStep, hc, if_false, Bool.false_eq_true]
        refine ⟨?_, ih.2⟩
        intro x hx
        rcases List.mem_cons.mp hx with h' | h'
        · exact h' ▸ hc
        · exact ih.1 x h'
  intro w hw
  simp only [pySplit] at hw
  by_cases hcur : (splitState s).1 = []
  · exact (key s).2 w (by simpa [hcur] using hw)
  · rw [if_neg hcur] at hw
    rcases List.mem_cons.mp hw with h' | h'
    · exact h' ▸ ⟨hcur, (key s).1⟩
    · exact (key s).2 w h'

theorem pySplit_eq_nil_iff (s : Str) :
    pySplit s = [] ↔ ∀ c ∈ s, pyIsSpace c := by
  constructor
  · intro h
    induction s with
    | nil => simp
    | cons c s ih =>
      by_cases hc : pyIsSpace c
      · rw [pySplit_cons_space hc] at h
        intro x hx
        rcases List.mem_cons.mp hx with h' | h'
        · exact h' ▸ hc
        · exact ih h x h'
      · exact absurd h (pySplit_cons_nonspace_ne_nil hc s)
  · exact pySplit_allspace

/-- `strip` removes an all-whitespace prefix and suffix and keeps the middle. -/
theorem pyStrip_decomp (s : Str) :
    ∃ a b, s = a ++ pyStrip s ++ b ∧ (∀ c ∈ a, pyIsSpace c) ∧ (∀ c ∈ b, pyIsSpace c) := by
  refine ⟨s.takeWhile pyIsSpace, ((s.dropWhile pyIsSpace).reverse.takeWhile pyIsSpace).reverse,
    ?_, fun c hc => List.mem_takeWhile_imp hc, fun c hc =>
      List.mem_takeWhile_imp (List.mem_reverse.mp hc)⟩
  conv_lhs => rw [← List.takeWhile_append_dropWhile pyIsSpace s]
  rw [List.append_assoc]
  congr 1
  conv_lhs => rw [← List.reverse_reverse (s.dropWhile pyIsSpace),
    ← List.takeWhile_append_dropWhile pyIsSpace ((s.dropWhile pyIsSpace).reverse)]
  rw [List.reverse_append]
  rfl

theorem pySplit_pyStrip (s : Str) : pySplit (pyStrip s) = pySplit s := by
  obtain ⟨a, b, hs, ha, hb⟩ := pyStrip_decomp s
  conv_rhs => rw [hs]
  rw [List.append_assoc, pySplit_prepend_allspace ha, pySplit_append_allspace hb]

theorem pyStrip_eq_nil_iff (s : Str) :
    pyStrip s = [] ↔ ∀ c ∈ s, pyIsSpace c := by
  constructor
  · intro h
    obtain ⟨a, b, hs, ha, hb⟩ := pyStrip_decomp s
    rw [h] at hs
    intro c hc
    rw [hs] at hc
    simp only [List.append_nil, List.mem_append] at hc
    rcases hc with h' | h'
    · exact ha c h'
    · exact hb c h'
  · intro h
    have h1 : s.dropWhile pyIsSpace = [] := by
      rw [List.dropWhile_eq_nil_iff]
      intro c hc
      exact h c hc
    simp [pyStrip, h1]

theorem pyStrip_mem {s : Str} {c : Char} (hc : c ∈ pyStrip s) : c ∈ s := by
  obtain ⟨a, b, hs, _, _⟩ := pyStrip_decomp s
  rw [hs]
  simp [hc]

/-- The pruning/wrapping gate `len(x.strip()) > 0` holds exactly when the
string has at least one word. -/
theorem gate_iff (s : Str) : 0 < (pyStrip s).length ↔ pySplit s ≠ [] := by
  rw [List.length_pos, ne_eq, ne_eq, pySplit_eq_nil_iff]
  rw [← pyStrip_eq_nil_iff]

/-! ## Closed form of the greedy packing loop -/

/-- Recursive characterization of the greedy loop: the list of flushed
(stripped) lines and the final residual row. -/
def greedyAux : List Str → Str → List Str × Str
  | [], row => ([], row)
  | w :: ws, row =>
    if 60 < row.length then
      (pyStrip row :: (greedyAux ws w).1, (greedyAux ws w).2)
    else greedyAux ws (row ++ ' ' :: w)

/-- Rendering of the flushed lines: each line is followed by a newline and
the interior indent. -/
def linesRender (spaces : Int) (ls : List Str) : Str :=
  (ls.map (fun l => l ++ '\n' :: spacesStr spaces)).flatten

theorem buildFold_eq (spaces : Int) :
    ∀ (ws : List Str) (s0 row : Str),
      ws.foldl (paraStep spaces) (s0, row) =
        (s0 ++ linesRender spaces (greedyAux ws row).1, (greedyAux ws row).2) := by
  intro ws
  induction ws with
  | nil => intro s0 row; simp [greedyAux, linesRender]
  | cons w ws ih =>
    intro s0 row
    rw [List.foldl_cons]
    by_cases h : 60 < row.length
    · rw [show paraStep spaces (s0, row) w =
          (s0 ++ pyStrip row ++ '\n' :: spacesStr spaces, w) by simp [paraStep, h]]
      rw [ih]
      simp [greedyAux, h, linesRender, List.append_assoc]
    · rw [show paraStep spaces (s0, row) w = (s0, row ++ ' ' :: w) by simp [paraStep, h]]
      rw [ih]
      simp [greedyAux, h]

/-- The closed form of `buildPara`. -/
theorem buildPara_eq (ws : List Str) (spaces : Int) :
    buildPara ws spaces =
      '\n' :: (spacesStr spaces ++ linesRender spaces (greedyAux ws []).1 ++
        (if 0 < (pyStrip (greedyAux ws []).2).length then
          pyStrip (greedyAux ws []).2 ++ '\n' :: spacesStr (spaces - 2) else [])) := by
  simp only [buildPara]
  rw [buildFold_eq]
  by_cases h : 0 < (pyStrip (greedyAux ws []).2).length <;>
    simp [h, List.append_assoc]

theorem spacesStr_allspace (n : Int) : ∀ c ∈ spacesStr n, pyIsSpace c := by
  intro c hc
  simp only [spacesStr] at hc
  rw [List.eq_of_mem_replicate hc]
  decide

/-- The greedy loop loses no word: the words of the flushed lines followed
by the words of the residual row are the words of the initial row followed
by the input words. -/
theorem greedy_words :
    ∀ (ws : List Str), (∀ w ∈ ws, w ≠ [] ∧ ∀ c ∈ w, ¬ pyIsSpace c) →
      ∀ row : Str,
        ((greedyAux ws row).1.map pySplit).flatten ++ pySplit (greedyAux ws row).2 =
          pySplit row ++ ws := by
  intro ws
  induction ws with
  | nil => intro _ row; simp [greedyAux]
  | cons w ws ih =>
    intro hws row
    have hw := hws w (List.mem_cons_self w ws)
    have hws' := fun x hx => hws x (List.mem_cons_of_mem _ hx)
    have hsw : pySplit w = [w] := pySplit_word hw.2 hw.1
    by_cases h : 60 < row.length
    · simp only [greedyAux, h, if_true, List.map_cons, List.flatten_cons, List.append_assoc]
      rw [ih hws' w, pySplit_pyStrip, hsw]
      simp
    · simp only [greedyAux, h, if_false]
      rw [ih hws' (row ++ ' ' :: w),
        pySplit_append_space (by decide : pyIsSpace ' ') row w, hsw]
      simp

/-- Splitting a concatenation of blocks each terminated by a nonempty
all-whitespace separator splits blockwise. -/
theorem pySplit_blocks {sep : Str} (hsep : ∀ c ∈ sep, pyIsSpace c) (hne : sep ≠ [])
    (ls : List Str) (T : Str) :
    pySplit ((ls.map (fun l => l ++ sep)).flatten ++ T) =
      (ls.map pySplit).flatten ++ pySplit T := by
  induction ls with
  | nil => simp
  | cons l ls ih =>
    rcases hs : sep with _ | ⟨c, sep'⟩
    · exact absurd hs hne
    subst hs
    have hc : pyIsSpace c := hsep c (List.mem_cons_self c sep')
    have hsep' : ∀ x ∈ sep', pyIsSpace x := fun x hx =>
      hsep x (List.mem_cons_of_mem _ hx)
    simp only [List.map_cons, List.flatten_cons, List.append_assoc, List.cons_append]
    rw [pySplit_append_space hc, pySplit_prepend_allspace hsep', ih]

/-- The words of the built paragraph are exactly the input words. -/
theorem pySplit_buildPara (ws : List Str)
    (hws : ∀ w ∈ ws, w ≠ [] ∧ ∀ c ∈ w, ¬ pyIsSpace c) (spaces : Int) :
    pySplit (buildPara ws spaces) = ws := by
  rw [buildPara_eq, pySplit_cons_space (by decide : pyIsSpace '\n'), List.append_assoc,
    pySplit_prepend_allspace (spacesStr_allspace spaces), linesRender,
    @pySplit_blocks ('\n' :: spacesStr spaces)
      (by intro c hc
          rcases List.mem_cons.mp hc with h | h
          · rw [h]; decide
          · exact spacesStr_allspace spaces c h)
      (by simp)]
  by_cases h : 0 < (pyStrip (greedyAux ws []).2).length
  · rw [if_pos h, pySplit_append_space (by decide : pyIsSpace '\n'),
      pySplit_pyStrip, pySplit_allspace (spacesStr_allspace (spaces - 2)),
      List.append_nil]
    have := greedy_words ws hws []
    simpa [pySplit_nil] using this
  · rw [if_neg h]
    have hr : pySplit (greedyAux ws []).2 = [] := by
      by_contra hne
      exact h ((gate_iff _).mpr hne)
    have := greedy_words ws hws []
    rw [hr] at this
    simpa [pySplit_nil] using this

/-- The words of `_format_paragraph`'s output are exactly the words of the
newline-deleted input. -/
theorem pySplit_formatParagraph (p : Str) (s : Int) :
    pySplit (formatParagraph p s) = pySplit (p.filter (fun c => c ≠ '\n')) := by
  have hws : ∀ w ∈ wordsOf p, w ≠ [] ∧ ∀ c ∈ w, ¬ pyIsSpace c := by
    intro w hw
    exact pySplit_wordOK _ w hw
  rw [formatParagraph, pySplit_buildPara (wordsOf p) hws s, wordsOf, pySplit_pyStrip]

theorem filter_nl_eq_self {l : Str} (h : ∀ c ∈ l, c ≠ '\n') :
    l.filter (fun c => c ≠ '\n') = l := by
  rw [List.filter_eq_self]
  intro a ha
  simpa using h a ha

theorem spacesStr_no_nl (n : Int) : ∀ c ∈ spacesStr n, c ≠ '\n' := by
  intro c hc
  simp only [spacesStr] at hc
  rw [List.eq_of_mem_replicate hc]
  decide

theorem spacesStr_ne_nil {s : Int} (hs : 1 ≤ s) : spacesStr s ≠ [] := by
  have h1 : 1 ≤ s.toNat := by omega
  simp only [spacesStr, ne_eq, List.replicate_eq_nil_iff]
  omega

/-- No character of the greedy loop's lines or residual row is a newline,
provided the input words are whitespace-free. -/
theorem greedy_no_nl :
    ∀ (ws : List Str), (∀ w ∈ ws, ∀ c ∈ w, ¬ pyIsSpace c) →
      ∀ row, (∀ c ∈ row, c ≠ '\n') →
        (∀ l ∈ (greedyAux ws row).1, ∀ c ∈ l, c ≠ '\n') ∧
        (∀ c ∈ (greedyAux ws row).2, c ≠ '\n') := by
  intro ws
  induction ws with
  | nil =>
    intro _ row hrow
    exact ⟨by simp [greedyAux], by simpa [greedyAux] using hrow⟩
  | cons w ws ih =>
    intro hws row hrow
    have hwnl : ∀ c ∈ w, c ≠ '\n' := by
      intro c hc hEq
      exact hws w (List.mem_cons_self w ws) c hc (by rw [hEq]; decide)
    have hws' := fun x hx => hws x (List.mem_cons_of_mem _ hx)
    by_cases h : 60 < row.length
    · have hrec := ih hws' w hwnl
      refine ⟨?_, by simp only [greedyAux, h, if_true]; exact hrec.2⟩
      simp only [greedyAux, h, if_true]
      intro l hl
      rcases List.mem_cons.mp hl with h' | h'
      · exact h' ▸ (fun c hc => hrow c (pyStrip_mem hc))
      · exact hrec.1 l h'
    · have hrow' : ∀ c ∈ row ++ ' ' :: w, c ≠ '\n' := by
        intro c hc
        rcases List.mem_append.mp hc with h' | h'
        · exact hrow c h'
        · rcases List.mem_cons.mp h' with h'' | h''
          · rw [h'']; decide
          · exact hwnl c h''
      have hrec := ih hws' (row ++ ' ' :: w) hrow'
      simpa [greedyAux, h] using hrec

theorem filter_linesRender {s : Int} {L : List Str}
    (h : ∀ l ∈ L, ∀ c ∈ l, c ≠ '\n') :
    (linesRender s L).filter (fun c => c ≠ '\n') =
      (L.map (fun l => l ++ spacesStr s)).flatten := by
  induction L with
  | nil => simp [linesRender]
  | cons l L ih =>
    simp only [linesRender, List.map_cons, List.flatten_cons, List.filter_append]
    rw [filter_nl_eq_self (h l (List.mem_cons_self l L)),
      show ('\n' :: spacesStr s).filter (fun c => c ≠ '\n') = spacesStr s by
        rw [List.filter_cons_of_neg (by decide), filter_nl_eq_self (spacesStr_no_nl s)]]
    have := ih (fun x hx => h x (List.mem_cons_of_mem _ hx))
    simp only [linesRender] at this
    rw [this, List.append_assoc]

/-- With interior indent of at least one space, the word list of the built
paragraph — as recomputed by `_format_paragraph` itself on a second pass
(newline deletion, strip, split) — is again the input word list. -/
theorem wordsOf_buildPara (ws : List Str)
    (hws : ∀ w ∈ ws, w ≠ [] ∧ ∀ c ∈ w, ¬ pyIsSpace c) {s : Int} (hs : 1 ≤ s) :
    wordsOf (buildPara ws s) = ws := by
  have hnl := greedy_no_nl ws (fun w hw => (hws w hw).2) [] (by simp)
  rw [wordsOf, pySplit_pyStrip, buildPara_eq]
  rw [List.filter_cons_of_neg (by decide)]
  rw [List.filter_append, List.filter_append,
    filter_nl_eq_self (spacesStr_no_nl s), filter_linesRender hnl.1]
  have hTf : ((if 0 < (pyStrip (greedyAux ws []).2).length then
        pyStrip (greedyAux ws []).2 ++ '\n' :: spacesStr (s - 2)
      else []).filter (fun c => c ≠ '\n')) =
      (if 0 < (pyStrip (greedyAux ws []).2).length then
        pyStrip (greedyAux ws []).2 ++ spacesStr (s - 2) else []) := by
    by_cases h : 0 < (pyStrip (greedyAux ws []).2).length
    · rw [if_pos h, if_pos h, List.filter_append,
        filter_nl_eq_self (fun c hc => hnl.2 c (pyStrip_mem hc)),
        List.filter_cons_of_neg (by decide), filter_nl_eq_self (spacesStr_no_nl (s - 2))]
    · rw [if_neg h, if_neg h]; rfl
  rw [hTf, List.append_assoc, pySplit_prepend_allspace (spacesStr_allspace s),
    @pySplit_blocks (spacesStr s) (spacesStr_allspace s) (spacesStr_ne_nil hs)]
  by_cases h : 0 < (pyStrip (greedyAux ws []).2).length
  · rw [if_pos h, pySplit_append_allspace (spacesStr_allspace (s - 2)), pySplit_pyStrip]
    have := greedy_words ws hws []
    simpa [pySplit_nil] using this
  · rw [if_neg h]
    have hr : pySplit (greedyAux ws []).2 = [] := by
      by_contra hne
      exact h ((gate_iff _).mpr hne)
    have := greedy_words ws hws []
    rw [hr] at this
    simpa [pySplit_nil] using this

/-- Re-splitting the wrapped paragraph (with interior indent ≥ 1) yields
the original word list: wrapping twice is wrapping once. -/
theorem wordsOf_formatParagraph {s : Int} (hs : 1 ≤ s) (p : Str) :
    wordsOf (formatParagraph p s) = wordsOf p :=
  wordsOf_buildPara _ (fun w hw => pySplit_wordOK _ w hw) hs

theorem formatParagraph_stable {s1 : Int} (h1 : 1 ≤ s1) (p : Str) (s2 : Int) :
    formatParagraph (formatParagraph p s1) s2 = formatParagraph p s2 := by
  rw [show formatParagraph (formatParagraph p s1) s2 =
      buildPara (wordsOf (formatParagraph p s1)) s2 from rfl,
    wordsOf_formatParagraph h1]
  rfl

/-- The wrapped paragraph passes the `len(text.strip()) > 0` gate whenever
there was at least one word. -/
theorem buildPara_gate (ws : List Str)
    (hws : ∀ w ∈ ws, w ≠ [] ∧ ∀ c ∈ w, ¬ pyIsSpace c) (s : Int) (hne : ws ≠ []) :
    0 < (pyStrip (buildPara ws s)).length := by
  rw [gate_iff, pySplit_buildPara ws hws s]
  exact hne

/-- The wrapping gate in terms of words. -/
theorem gate_iff_wordsOf (t : Str) : 0 < (pyStrip t).length ↔ wordsOf t ≠ [] := by
  rw [gate_iff, wordsOf, pySplit_pyStrip, ne_eq, ne_eq, pySplit_eq_nil_iff,
    pySplit_eq_nil_iff]
  apply not_congr
  constructor
  · intro h c hc
    exact h c (List.mem_filter.mp hc).1
  · intro h c hc
    by_cases hnl : c = '\n'
    · rw [hnl]; decide
    · exact h c (List.mem_filter.mpr ⟨hc, by simpa using hnl⟩)

/-- On an empty or all-whitespace input the loop never runs and the final
flush is skipped: the result is the initial `"\n" + " " * spaces`. -/
theorem formatParagraph_blank {p : Str} (hp : pySplit p = []) (s : Int) :
    formatParagraph p s = '\n' :: spacesStr s := by
  have hall : ∀ c ∈ p, pyIsSpace c := (pySplit_eq_nil_iff p).mp hp
  have hw : wordsOf p = [] := by
    rw [wordsOf, pySplit_pyStrip, pySplit_eq_nil_iff]
    intro c hc
    exact hall c (List.mem_filter.mp hc).1
  rw [formatParagraph, hw]
  rfl

/-- With at least one input word the residual row of the greedy loop holds
at least one word (in particular the final flush fires). -/
theorem greedy_residual_ne (ws : List Str)
    (hws : ∀ w ∈ ws, w ≠ [] ∧ ∀ c ∈ w, ¬ pyIsSpace c) (hne : ws ≠ []) :
    ∀ row, pySplit (greedyAux ws row).2 ≠ [] := by
  induction ws with
  | nil => exact absurd rfl hne
  | cons w ws ih =>
    intro row
    have hw := hws w (List.mem_cons_self w ws)
    have hws' := fun x hx => hws x (List.mem_cons_of_mem _ hx)
    rcases ws with _ | ⟨w', ws'⟩
    · by_cases h : 60 < row.length
      · simp only [greedyAux, h, if_true]
        rw [pySplit_word hw.2 hw.1]
        simp
      · simp only [greedyAux, h, if_false]
        rw [pySplit_append_space (by decide : pyIsSpace ' ') row w, pySplit_word hw.2 hw.1]
        simp
    · by_cases h : 60 < row.length
      · simp only [greedyAux, h, if_true]
        exact ih hws' (by simp) w
      · simp only [greedyAux, h, if_false]
        exact ih hws' (by simp) (row ++ ' ' :: w)

/-- Python's `s.split("\n")`-style decomposition of a string into lines
(used only to state claims about the shape of the wrapper output). -/
def linesOf (s : Str) : List Str :=
  s.foldr
    (fun c acc =>
      if c = '\n' then [] :: acc
      else
        match acc with
        | [] => [[c]]
        | l :: ls => (c :: l) :: ls)
    [[]]

/-! ## Claims about the Paragraph Wrapper -/

/-- **C3, counterexample.**  The claim says the word sequence of the
wrapper output equals the word sequence of the input.  It fails on
`"foo\nbar"`: `replace("\n", "")` deletes the newline and merges the two
words into `"foobar"`. -/
theorem claim_C3_cex :
    pySplit (formatParagraph ("foo\nbar".toList) 10) ≠
      pySplit ("foo\nbar".toList) := by
  decide

/-- **C3 (amended).**  For every input text and indent width, the word
sequence of the Paragraph Wrapper's output equals the word sequence of the
input *after deleting every newline character* (so two words separated
only by a newline are merged); apart from that newline deletion the
wrapper never drops, merges, or reorders words — it only inserts line
breaks and indentation whitespace. -/
theorem claim_C3 (p : Str) (s : Int) :
    pySplit (formatParagraph p s) = pySplit (p.filter (fun c => c ≠ '\n')) :=
  pySplit_formatParagraph p s

/-- **C7, counterexample.**  The claim says the wrapper returns the
empty/whitespace input itself.  On the empty string with indent 10 it
instead returns a newline followed by ten spaces. -/
theorem claim_C7_cex :
    formatParagraph [] 10 = '\n' :: List.replicate 10 ' ' ∧
      formatParagraph [] 10 ≠ [] := by
  decide

/-- **C7 (amended).**  For every empty or all-whitespace input text and any
indent width, the Paragraph Wrapper returns the fixed whitespace skeleton
`"\n" + " " * indent` — an all-whitespace string containing no words, but
not (in general) the input string itself. -/
theorem claim_C7 (p : Str) (s : Int) (hp : pySplit p = []) :
    formatParagraph p s = '\n' :: spacesStr s :=
  formatParagraph_blank hp s

/-- **C7 witness**: the amended claim at the empty string and at a blank
string. -/
theorem claim_C7_witness :
    formatParagraph [] 10 = '\n' :: spacesStr 10 ∧
      formatParagraph [' ', '\t'] 5 = '\n' :: spacesStr 5 :=
  ⟨claim_C7 [] 10 (by decide), claim_C7 [' ', '\t'] 5 (by decide)⟩

/-- **C8, counterexample.**  The claim says the closing line is *prefixed*
with `indent width - 2` spaces.  For input `"hello"` at indent 10 the only
content line is prefixed with the full 10 spaces; the 8-space narrower
indent forms a trailing line *after* the final content line. -/
theorem claim_C8_cex :
    linesOf (formatParagraph ("hello".toList) 10) =
        [[], List.replicate 10 ' ' ++ "hello".toList, List.replicate 8 ' '] ∧
      ∀ l ∈ linesOf (formatParagraph ("hello".toList) 10),
        pyStrip l ≠ [] → (l.takeWhile (fun c => c = ' ')).length = 10 := by
  decide

/-- **C8 (amended).**  For every input whose wrapping yields a non-empty
final partial line, the final line is flushed like the interior ones —
prefixed by `indent width` spaces (the leading `"\n" + " " * indent` or the
previous flush) — and is then *followed* by a newline plus
`indent width - 2` spaces, so the two-columns-narrower indent trails the
closing line (indenting what follows it) rather than prefixing it. -/
theorem claim_C8 (p : Str) (s : Int) (h : wordsOf p ≠ []) :
    formatParagraph p s =
      '\n' :: (spacesStr s ++ linesRender s (greedyAux (wordsOf p) []).1 ++
        (pyStrip (greedyAux (wordsOf p) []).2 ++ '\n' :: spacesStr (s - 2))) := by
  have hws : ∀ w ∈ wordsOf p, w ≠ [] ∧ ∀ c ∈ w, ¬ pyIsSpace c := by
    intro w hw
    exact pySplit_wordOK _ w hw
  have hres : pySplit (greedyAux (wordsOf p) []).2 ≠ [] :=
    greedy_residual_ne (wordsOf p) hws h []
  have hgate : 0 < (pyStrip (greedyAux (wordsOf p) []).2).length :=
    (gate_iff _).mpr hres
  rw [formatParagraph, buildPara_eq, if_pos hgate]

/-- **C8 witness**: the amended claim at `"hello"`, indent 10. -/
theorem claim_C8_witness :
    formatParagraph ("hello".toList) 10 =
      '\n' :: (spacesStr 10 ++ linesRender 10 (greedyAux (wordsOf ("hello".toList)) []).1 ++
        (pyStrip (greedyAux (wordsOf ("hello".toList)) []).2 ++ '\n' :: spacesStr (10 - 2))) :=
  claim_C8 ("hello".toList) 10 (by decide)

/-! ## The element tree -/

/-- An `lxml` element: qualified tag, ordered attribute mapping, optional
text, ordered children, optional tail text.  The tree is finite and
ordered, as produced by `parse_tei`. -/
inductive Elem : Type where
  | mk (tag : Str) (attrib : List (Str × Str)) (text : Option Str)
      (children : List Elem) (tail : Option Str)

def Elem.tag : Elem → Str
  | .mk t _ _ _ _ => t

def Elem.attrib : Elem → List (Str × Str)
  | .mk _ a _ _ _ => a

def Elem.text : Elem → Option Str
  | .mk _ _ x _ _ => x

def Elem.children : Elem → List Elem
  | .mk _ _ _ cs _ => cs

def Elem.tailText : Elem → Option Str
  | .mk _ _ _ _ tl => tl

/-- `elem.tag = t` (tag assignment). -/
def setTag (t : Str) : Elem → Elem
  | .mk _ a x cs tl => .mk t a x cs tl

/-- `TEI_NS = "{http://www.tei-c.org/ns/1.0}"` (the braces are part of the
qualified-name syntax used by lxml). -/
def TEI_NS : Str := "\x7bhttp://www.tei-c.org/ns/1.0\x7d".toList

/-- The tag of a TEI division, `ns + "div"`. -/
def divTag : Str := TEI_NS ++ "div".toList

/-- Python string `<`: lexicographic by code point. -/
def strLt : Str → Str → Bool
  | [], [] => false
  | [], _ :: _ => true
  | _ :: _, [] => false
  | c :: s, d :: t => if c.val < d.val then true else if d.val < c.val then false else strLt s t

/-- Python tuple `<=` on attribute `(key, value)` pairs. -/
def pairLe (p q : Str × Str) : Bool :=
  strLt p.1 q.1 || (p.1 == q.1 && (strLt p.2 q.2 || p.2 == q.2))

/-- `sorted(elem.attrib.items())`. -/
def sortedItems (l : List (Str × Str)) : List (Str × Str) :=
  l.mergeSort (fun p q => pairLe p q)

/-- In Python, `type(sorted(xs)) == list` is `True`: `sorted` always
returns a `list`.  This constant names that fact where `_sort_attrs`
tests it. -/
def sortedItemsIsList : Bool := true

/-- `_sort_attrs(elem)` from `src/pysuca/utils.py`.  The guard
`if len(attrs) == 0 or type(attrs) == list: return elem` always takes the
`return` branch because `attrs = sorted(elem.attrib.items())` is always a
`list`; the reordering code below the guard is dead (and would raise
`AttributeError` on `attrs.items()` if it were ever reached, `attrs` being
a list).  The dead branch is modelled as returning the element. -/
def sortAttrs (elem : Elem) : Elem :=
  let attrs := sortedItems elem.attrib
  if attrs.length = 0 || sortedItemsIsList then elem
  else elem

theorem sortAttrs_eq (e : Elem) : sortAttrs e = e := by
  simp [sortAttrs, sortedItemsIsList]

/-- The classification chain of `_iter` for one direct child of a
division, in source order: returns the yielded category string together
with the (possibly namespace-rewritten) tag, or `none` for the
`warnings.warn(f"Unrecognized element {elem.tag}")` / `yield None`
branch. -/
def classify (tag : Str) : Option (Str × Str) :=
  if tag = TEI_NS ++ "u".toList then some ("u".toList, tag)
  else if tag = TEI_NS ++ "note".toList then some ("note".toList, tag)
  else if tag = TEI_NS ++ "pb".toList then some ("pb".toList, tag)
  else if tag = "pb".toList then some ("pb".toList, TEI_NS ++ "pb".toList)
  else if tag = TEI_NS ++ "seg".toList then some ("seg".toList, tag)
  else if tag = "u".toList then some ("u".toList, TEI_NS ++ "u".toList)
  else if tag = "p".toList then some ("p".toList, TEI_NS ++ "p".toList)
  else if tag = TEI_NS ++ "p".toList then some ("p".toList, tag)
  else if tag = "span".toList then some ("span".toList, TEI_NS ++ "span".toList)
  else if tag = TEI_NS ++ "span".toList then some ("span".toList, tag)
  else if tag = "title".toList then some ("title".toList, TEI_NS ++ "title".toList)
  else if tag = TEI_NS ++ "title".toList then some ("title".toList, tag)
  else if tag = "head".toList then some ("head".toList, TEI_NS ++ "head".toList)
  else if tag = TEI_NS ++ "head".toList then some ("head".toList, tag)
  else if tag = TEI_NS ++ "author".toList then some ("author".toList, tag)
  else none

/-- The text step of `_format`: `if type(elem.text) == str and elem.text
is not None and len(elem.text.strip()) > 0: elem.text =
_format_paragraph(elem.text, padding+2)`. -/
def textStep (x : Option Str) (padding : Int) : Option Str :=
  match x with
  | some t =>
    if 0 < (pyStrip t).length then some (formatParagraph t (padding + 2)) else some t
  | none => none

mutual

/-- The body of `_format(elem, rm_empty, padding)` up to but excluding the
prune decision: sort the attributes, wrap the text at `padding + 2`, and
recurse into each child at `padding + 2` (children pruned by their own
recursive call are removed; lxml's child iterator pre-fetches the next
sibling before yielding, so removing the yielded child does not skip its
successor). -/
def formatBody (rm : Bool) (padding : Int) (e : Elem) : Elem :=
  match e with
  | .mk tg a x cs tl =>
    let e1 := sortAttrs (.mk tg a x cs tl)
    .mk e1.tag e1.attrib (textStep e1.text padding)
      (formatChildren rm (padding + 2) e1.children) e1.tailText
termination_by sizeOf e
decreasing_by
  simp_wf
  rw [sortAttrs_eq]
  simp [Elem.children]
  omega

/-- The `for child in elem: child = _format(child, rm_empty,
padding=padding+2)` loop: each child is processed in order; a child whose
recursive `_format` detached it (returned `none`) disappears from the
parent's child list. -/
def formatChildren (rm : Bool) (padding : Int) (cs : List Elem) : List Elem :=
  match cs with
  | [] => []
  | c :: rest =>
    match formatElem rm padding c with
    | none => formatChildren rm padding rest
    | some c' => c' :: formatChildren rm padding rest
termination_by sizeOf cs
decreasing_by
  all_goals simp_wf
  all_goals have h : 0 < sizeOf rest := by cases rest <;> simp_arith
  all_goals omega

/-- `_format(elem, rm_empty, padding)` for an element that has a parent:
after the body, `if elem.text == None and len(elem) == 0 and rm_empty:
elem.getparent().remove(elem)` — modelled by returning `none` exactly when
the detach branch fires. -/
def formatElem (rm : Bool) (padding : Int) (e : Elem) : Option Elem :=
  let b := formatBody rm padding e
  if b.text = none ∧ b.children.length = 0 ∧ rm = true then none else some b
termination_by sizeOf e + 1

end

/-- `_format` applied to an element with **no parent** (`getparent()` is
`None`): when the detach branch fires it evaluates
`None.remove(elem)`, raising `AttributeError`. -/
def formatRootCall (rm : Bool) (padding : Int) (e : Elem) : Except Str Elem :=
  let b := formatBody rm padding e
  if b.text = none ∧ b.children.length = 0 ∧ rm = true then
    .error ("AttributeError: NoneType object has no attribute remove".toList)
  else .ok b

/-- Unfolding equation for `formatElem`. -/
theorem formatElem_eq (rm : Bool) (padding : Int) (c : Elem) :
    formatElem rm padding c =
      if (formatBody rm padding c).text = none ∧
          (formatBody rm padding c).children.length = 0 ∧ rm = true then none
      else some (formatBody rm padding c) := by
  rw [formatElem]

mutual

/-- Number of nodes of an element (the termination measure of the tree
walk: formatting rewrites texts but never adds nodes). -/
def esize : Elem → Nat
  | .mk _ _ _ cs _ => 1 + esizeL cs

def esizeL : List Elem → Nat
  | [] => 0
  | c :: cs => 1 + esize c + esizeL cs

end

theorem esizeL_children_lt (e : Elem) : esizeL e.children < esize e := by
  match e with
  | .mk tg a x cs tl => simp [esize, Elem.children]

theorem esize_setTag (t : Str) (e : Elem) : esize (setTag t e) = esize e := by
  match e with
  | .mk tg a x cs tl => simp [setTag, esize]

mutual

theorem esize_formatBody (rm : Bool) (padding : Int) (e : Elem) :
    esize (formatBody rm padding e) ≤ esize e := by
  match e with
  | .mk tg a x cs tl =>
    have h := esizeL_formatChildren rm (padding + 2) cs
    rw [formatBody]
    simp only [sortAttrs_eq, Elem.tag, Elem.attrib, Elem.text, Elem.children, Elem.tailText,
      esize]
    omega
termination_by sizeOf e

theorem esizeL_formatChildren (rm : Bool) (padding : Int) (cs : List Elem) :
    esizeL (formatChildren rm padding cs) ≤ esizeL cs := by
  match cs with
  | [] => simp [formatChildren]
  | c :: rest =>
    have h1 := esizeL_formatChildren rm padding rest
    have h2 := esize_formatBody rm padding c
    rw [formatChildren]
    rw [formatElem_eq]
    by_cases hp : (formatBody rm padding c).text = none ∧
        (formatBody rm padding c).children.length = 0 ∧ rm = true
    · rw [if_pos hp]
      simp only [esizeL]
      omega
    · rw [if_neg hp]
      simp only [esizeL]
      omega
termination_by sizeOf cs
decreasing_by
  all_goals simp_wf
  all_goals have h : 0 < sizeOf rest := by cases rest <;> simp_arith
  all_goals omega

end

/-- Handling of one yielded item of `_iter` by the loop
`for tag, elem in _iter(root): elem = _format(elem, rm_empty,
padding=padding)`.  An unrecognized child makes `_iter` warn and yield
`None`, which the loop header fails to unpack into `tag, elem` — a
`TypeError` that aborts the whole call.  Otherwise `_iter` has rewritten a
legacy tag to its namespaced form as a side effect, and `_format` runs on
the child; if `_format` detached the child, it disappears from the
division (lxml's child iterator pre-fetches the next sibling before
yielding an element, so the generator still visits the following
siblings). -/
def processChild (rm : Bool) (padding : Int) (c : Elem) : Except Str (List Elem) :=
  match classify c.tag with
  | none => .error ("TypeError: cannot unpack non-iterable NoneType object".toList)
  | some (_cat, tg) =>
    match formatElem rm padding (setTag tg c) with
    | none => .ok []
    | some c' => .ok [c']

/-- The classify-and-format loop over the direct children of one
division, in document order; the first unrecognized child aborts. -/
def processChildren (rm : Bool) (padding : Int) : List Elem → Except Str (List Elem)
  | [] => .ok []
  | c :: cs =>
    match processChild rm padding c with
    | .error s => .error s
    | .ok h =>
      match processChildren rm padding cs with
      | .error s => .error s
      | .ok t => .ok (h ++ t)

theorem esizeL_append (a b : List Elem) : esizeL (a ++ b) = esizeL a + esizeL b := by
  induction a with
  | nil => simp [esizeL]
  | cons c a ih => simp [esizeL, ih]; omega

/-- A surviving formatted element is the format body and has at most the
original node count. -/
theorem esize_formatElem_some {rm : Bool} {padding : Int} {c c' : Elem}
    (hfe : formatElem rm padding c = some c') : esize c' ≤ esize c := by
  rw [formatElem_eq] at hfe
  by_cases hp : (formatBody rm padding c).text = none ∧
      (formatBody rm padding c).children.length = 0 ∧ rm = true
  · rw [if_pos hp] at hfe; exact absurd hfe (by simp)
  · rw [if_neg hp] at hfe
    simp only [Option.some.injEq] at hfe
    subst hfe
    exact esize_formatBody rm padding c

theorem esizeL_processChildren (rm : Bool) (padding : Int) :
    ∀ (cs ds : List Elem), processChildren rm padding cs = .ok ds →
      esizeL ds ≤ esizeL cs := by
  intro cs
  induction cs with
  | nil =>
    intro ds h
    simp only [processChildren, Except.ok.injEq] at h
    simp [← h, esizeL]
  | cons c rest ih =>
    intro ds h
    rw [processChildren] at h
    rcases hpc : processChild rm padding c with s | hd
    · rw [hpc] at h; exact absurd h (by simp)
    · rw [hpc] at h
      rcases hrest : processChildren rm padding rest with s | t
      · rw [hrest] at h; exact absurd h (by simp)
      · rw [hrest] at h
        simp only [Except.ok.injEq] at h
        subst h
        have ht := ih t hrest
        have hhd : esizeL hd ≤ 1 + esize c := by
          rcases hcl : classify c.tag with _ | ⟨cat, tg⟩
          · simp only [processChild, hcl] at hpc
            exact absurd hpc (by simp)
          · simp only [processChild, hcl] at hpc
            rcases hfe : formatElem rm padding (setTag tg c) with _ | c'
            · simp only [hfe, Except.ok.injEq] at hpc
              simp [← hpc, esizeL]
            · simp only [hfe, Except.ok.injEq] at hpc
              have hle : esize c' ≤ esize c := by
                have := esize_formatElem_some hfe
                rwa [esize_setTag] at this
              simp [← hpc, esizeL]
              omega
        rw [esizeL_append]
        simp only [esizeL]
        omega

/-- The per-division action of the walk: a division's direct children are
classified, retagged and formatted; any other node's children are left
untouched at this level (they are only descended into). -/
def divStep (rm : Bool) (padding : Int) (e : Elem) : Except Str (List Elem) :=
  if e.tag = divTag then processChildren rm padding e.children else .ok e.children

theorem esizeL_divStep {rm : Bool} {padding : Int} {e : Elem} {cs : List Elem}
    (h : divStep rm padding e = .ok cs) : esizeL cs ≤ esizeL e.children := by
  rw [divStep] at h
  by_cases hdiv : e.tag = divTag
  · rw [if_pos hdiv] at h
    exact esizeL_processChildren rm padding e.children cs h
  · rw [if_neg hdiv] at h
    simp only [Except.ok.injEq] at h
    rw [← h]

mutual

/-- The per-tree traversal of `_format_texts`.  The Python generator
`_iter` snapshots `root.findall(".//{ns}div")` — all divisions of the
original tree, in document (pre-)order, excluding the root itself — and
for each division iterates its direct children, classifying, retagging and
yielding them one by one while the consumer formats each yielded child in
place.  Every mutation performed between two yields (retag of the yielded
child; `_format`'s rewrites and prunes) is confined to the subtree of the
yielded child, a division is never created, renamed, moved or given new
children, and a pruned element has no children at detach time; lxml's
iterators also pre-fetch the next element before yielding.  The
interleaved generator/consumer execution is therefore equal to this
top-down walk of the current tree: at a node tagged `div`, first classify
and format the direct children in order (`processChildren`), then descend
into the resulting children; at any other node just descend.  The nested
divisions reached through the recursion are exactly the later entries of
the original `findall` snapshot, in the same order, and a division pruned
meanwhile (necessarily childless) contributes nothing either way. -/
def walk (rm : Bool) (padding : Int) (e : Elem) : Except Str Elem :=
  match hpc : divStep rm padding e with
  | .error s => .error s
  | .ok cs =>
    match walkList rm padding cs with
    | .error s => .error s
    | .ok cs' => .ok (.mk e.tag e.attrib e.text cs' e.tailText)
termination_by esize e
decreasing_by
  simp_wf
  have h1 := esizeL_divStep hpc
  have h2 := esizeL_children_lt e
  omega

def walkList (rm : Bool) (padding : Int) (cs : List Elem) : Except Str (List Elem) :=
  match cs with
  | [] => .ok []
  | c :: rest =>
    match walk rm padding c with
    | .error s => .error s
    | .ok c' =>
      match walkList rm padding rest with
      | .error s => .error s
      | .ok rest' => .ok (c' :: rest')
termination_by esizeL cs
decreasing_by
  · simp_wf; simp only [esizeL]; omega
  · simp_wf; simp only [esizeL]; omega

end

/-- Unfolding equation for `walk`. -/
theorem walk_eq (rm : Bool) (padding : Int) (e : Elem) :
    walk rm padding e =
      match divStep rm padding e with
      | .error s => .error s
      | .ok cs =>
        match walkList rm padding cs with
        | .error s => .error s
        | .ok cs' => .ok (.mk e.tag e.attrib e.text cs' e.tailText) := by
  rw [walk.eq_def]
  rcases h : divStep rm padding e with s | cs <;> simp [h]

theorem walkList_nil (rm : Bool) (padding : Int) : walkList rm padding [] = .ok [] := by
  rw [walkList.eq_def]

theorem walkList_cons (rm : Bool) (padding : Int) (c : Elem) (rest : List Elem) :
    walkList rm padding (c :: rest) =
      match walk rm padding c with
      | .error s => .error s
      | .ok c' =>
        match walkList rm padding rest with
        | .error s => .error s
        | .ok rest' => .ok (c' :: rest') := by
  rw [walkList.eq_def]

/-- `_format_texts(root, rm_empty, padding)`: process every division of
the tree (the `findall(".//{ns}div")` pattern matches descendants only,
never the root itself) and return the mutated root; the first
unrecognized division child aborts the call with a `TypeError`. -/
def formatTexts (root : Elem) (rmEmpty : Bool) (padding : Int) : Except Str Elem :=
  match walkList rmEmpty padding root.children with
  | .error s => .error s
  | .ok cs' => .ok (.mk root.tag root.attrib root.text cs' root.tailText)

/-- `write_tei(elem, file_, padding=8, rm_empty=True)`: format the tree in
place, then serialize it (`etree.tostring(..., pretty_print=True,
encoding="utf-8", xml_declaration=True)`) and write the bytes to the
target.  Serialization is the external lxml collaborator — a deterministic
function of the formatted tree — modelled by the parameter `ser`. -/
def writeTei (ser : Elem → List Nat) (elem : Elem) (padding : Int := 8)
    (rmEmpty : Bool := true) : Except Str (List Nat) :=
  (formatTexts elem rmEmpty padding).map ser

theorem formatChildren_nil (rm : Bool) (padding : Int) :
    formatChildren rm padding [] = [] := by
  rw [formatChildren]

theorem formatChildren_cons (rm : Bool) (padding : Int) (c : Elem) (rest : List Elem) :
    formatChildren rm padding (c :: rest) =
      match formatElem rm padding c with
      | none => formatChildren rm padding rest
      | some c' => c' :: formatChildren rm padding rest := by
  rw [formatChildren]

theorem formatChildren_append (rm : Bool) (padding : Int) (a b : List Elem) :
    formatChildren rm padding (a ++ b) =
      formatChildren rm padding a ++ formatChildren rm padding b := by
  induction a with
  | nil => simp [formatChildren_nil]
  | cons c a ih =>
    rw [List.cons_append, formatChildren_cons, formatChildren_cons]
    cases formatElem rm padding c <;> simp [ih]

/-- Unfolding equation for `formatBody` (using `_sort_attrs = id`). -/
theorem formatBody_eq (rm : Bool) (padding : Int) (e : Elem) :
    formatBody rm padding e =
      .mk e.tag e.attrib (textStep e.text padding)
        (formatChildren rm (padding + 2) e.children) e.tailText := by
  match e with
  | .mk tg a x cs tl =>
    rw [formatBody]
    rw [sortAttrs_eq]

/-! ## Claims about the Attribute Canonicalizer, Classifier and Formatter -/

/-- **C1.**  The claim says that for every element with a non-empty
attribute mapping, `_sort_attrs` reorders the mapping to `xml:id`, `type`,
`subtype` first and the rest lexicographically, preserving all pairs.  In
fact the guard `if len(attrs) == 0 or type(attrs) == list: return elem` is
a tautology — `sorted(elem.attrib.items())` is always a Python `list` — so
`_sort_attrs` returns every element completely unchanged; at the spec's
own example `{subtype: "x", foo: "z", type: "y", xml:id: "i1"}` the
attribute order stays `subtype, foo, type, xml:id` instead of the claimed
`xml:id, type, subtype, foo`. -/
theorem claim_C1 :
    (∀ e : Elem, sortAttrs e = e) ∧
    ((sortAttrs (.mk (TEI_NS ++ "u".toList)
        [("subtype".toList, "x".toList), ("foo".toList, "z".toList),
         ("type".toList, "y".toList), ("xml:id".toList, "i1".toList)] none [] none)).attrib.map
        Prod.fst =
      ["subtype".toList, "foo".toList, "type".toList, "xml:id".toList]) ∧
    ["subtype".toList, "foo".toList, "type".toList, "xml:id".toList] ≠
      ["xml:id".toList, "type".toList, "subtype".toList, "foo".toList] := by
  refine ⟨sortAttrs_eq, ?_, by decide⟩
  rw [sortAttrs_eq]
  rfl

/-- **C2.**  The claim says a full formatting invocation on a tree with an
unrecognized division child completes without a fatal error (warning
only).  In fact `_iter` warns and yields `None`, and the consumer loop
header `for tag, elem in _iter(root)` then fails to unpack `None`,
raising `TypeError` — the whole `write_tei` call faults.  Here the failing
input is a TEI root whose division has one child tagged `"foobar"`. -/
theorem claim_C2 :
    formatTexts
      (.mk (TEI_NS ++ "TEI".toList) [] none
        [.mk divTag [] none [.mk ("foobar".toList) [] none [] none] none] none)
      true 8 =
    .error ("TypeError: cannot unpack non-iterable NoneType object".toList) := by
  have hcl : classify ['f', 'o', 'o', 'b', 'a', 'r'] = none := by decide
  have hndiv : ¬ ((TEI_NS ++ "TEI".toList) = divTag) := by decide
  simp [formatTexts, walkList_cons, walkList_nil, walk_eq, divStep, processChildren,
    processChild, Elem.children, Elem.tag, Elem.attrib, Elem.text, Elem.tailText, hcl, hndiv]

/-- **C4.**  A classified element that, after its subtree has been
recursively formatted, has no text (`None`) and no children is detached
(`none`) when pruning is enabled and retained when pruning is disabled. -/
theorem claim_C4 (rm : Bool) (padding : Int) (e : Elem)
    (htext : (formatBody rm padding e).text = none)
    (hchild : (formatBody rm padding e).children = []) :
    formatElem rm padding e = (if rm then none else some (formatBody rm padding e)) := by
  rw [formatElem_eq]
  cases rm with
  | true => rw [if_pos ⟨htext, by rw [hchild]; rfl, rfl⟩]; rfl
  | false =>
    rw [if_neg]
    · rfl
    · rintro ⟨-, -, h⟩
      exact Bool.false_ne_true h

/-- **C4 witness**: an empty `note` element is detached under pruning and
retained without it. -/
theorem claim_C4_witness :
    formatElem true 8 (.mk ("note".toList) [] none [] none) = none ∧
    formatElem false 8 (.mk ("note".toList) [] none [] none) =
      some (formatBody false 8 (.mk ("note".toList) [] none [] none)) := by
  have hbt : ∀ rm : Bool, (formatBody rm 8 (.mk ("note".toList) [] none [] none)).text = none := by
    intro rm
    rw [formatBody_eq]
    rfl
  have hbc : ∀ rm : Bool,
      (formatBody rm 8 (.mk ("note".toList) [] none [] none)).children = [] := by
    intro rm
    rw [formatBody_eq]
    simp [Elem.children, formatChildren_nil]
  have h1 := claim_C4 true 8 (.mk ("note".toList) [] none [] none) (hbt true) (hbc true)
  have h2 := claim_C4 false 8 (.mk ("note".toList) [] none [] none) (hbt false) (hbc false)
  exact ⟨by simpa using h1, by simpa using h2⟩

/-- **C5.**  The claim (with the spec) says that detachment requested for
a parentless element is skipped as a no-op.  In fact `_format` evaluates
`elem.getparent().remove(elem)` unguarded: with no parent,
`getparent()` is `None` and the call raises `AttributeError` instead of
being skipped. -/
theorem claim_C5 (padding : Int) (e : Elem)
    (htext : (formatBody true padding e).text = none)
    (hchild : (formatBody true padding e).children = []) :
    formatRootCall true padding e =
      .error ("AttributeError: NoneType object has no attribute remove".toList) := by
  rw [formatRootCall]
  rw [if_pos ⟨htext, by rw [hchild]; rfl, rfl⟩]

/-- **C5 witness**: `_format` with pruning on a bare parentless `<note/>`
faults. -/
theorem claim_C5_witness :
    formatRootCall true 8 (.mk ("note".toList) [] none [] none) =
      .error ("AttributeError: NoneType object has no attribute remove".toList) :=
  claim_C5 8 (.mk ("note".toList) [] none [] none)
    (by rw [formatBody_eq]; rfl)
    (by rw [formatBody_eq]; simp [Elem.children, formatChildren_nil])

/-- **C9.**  The Recursive Formatter recurses into every child of the
element, in document order, at an indent two columns deeper, and a child
detached by its own recursive call does not make the traversal skip the
following siblings: the processed child list is the concatenation of the
processed prefix and the processed suffix around the detached child.
(lxml's `ElementChildIterator` pre-fetches the next sibling before
yielding an element, so removing the yielded element is safe.) -/
theorem claim_C9 (rm : Bool) (padding : Int) (e : Elem) :
    ((formatBody rm padding e).children = formatChildren rm (padding + 2) e.children) ∧
    (∀ pre post c, formatElem rm (padding + 2) c = none →
      formatChildren rm (padding + 2) (pre ++ c :: post) =
        formatChildren rm (padding + 2) pre ++ formatChildren rm (padding + 2) post) ∧
    (∀ pre post c c', formatElem rm (padding + 2) c = some c' →
      formatChildren rm (padding + 2) (pre ++ c :: post) =
        formatChildren rm (padding + 2) pre ++
          c' :: formatChildren rm (padding + 2) post) := by
  refine ⟨by rw [formatBody_eq]; simp [Elem.children], ?_, ?_⟩
  · intro pre post c hc
    rw [formatChildren_append, formatChildren_cons, hc]
  · intro pre post c c' hc
    rw [formatChildren_append, formatChildren_cons, hc]

/-- **C9 witness**: with a pruned empty `note` between two kept `pb`
siblings, both siblings are still visited and kept. -/
theorem claim_C9_witness :
    formatChildren true (8 + 2)
        ([.mk (TEI_NS ++ "pb".toList) [] none [] none] ++
          (.mk ("note".toList) [] none [] none) ::
            [.mk (TEI_NS ++ "pb".toList) [] none [] none]) =
      formatChildren true (8 + 2) [.mk (TEI_NS ++ "pb".toList) [] none [] none] ++
        formatChildren true (8 + 2) [.mk (TEI_NS ++ "pb".toList) [] none [] none] := by
  have hnone : formatElem true (8 + 2) (.mk ("note".toList) [] none [] none) = none := by
    rw [formatElem_eq]
    rw [if_pos]
    refine ⟨?_, ?_, rfl⟩
    · rw [formatBody_eq]; rfl
    · rw [formatBody_eq]; simp [Elem.children, formatChildren_nil]
  exact (claim_C9 true 8 (.mk ("note".toList) [] none [] none)).2.1
    [.mk (TEI_NS ++ "pb".toList) [] none [] none]
    [.mk (TEI_NS ++ "pb".toList) [] none [] none]
    (.mk ("note".toList) [] none [] none) hnone

/-- **C10.**  An element whose text is *present but empty* (`""`, as
opposed to `None`) with zero children after formatting is retained even
under pruning (`"" == None` is `False` in Python), and detachment fires
only when the post-format text is `None` (with no children and pruning
enabled). -/
theorem claim_C10 :
    (∀ (padding : Int) (e : Elem) (t : Str),
      (formatBody true padding e).text = some t →
        formatElem true padding e = some (formatBody true padding e)) ∧
    (∀ (rm : Bool) (padding : Int) (e : Elem),
      formatElem rm padding e = none →
        (formatBody rm padding e).text = none ∧
          (formatBody rm padding e).children = [] ∧ rm = true) := by
  constructor
  · intro padding e t htext
    rw [formatElem_eq, if_neg]
    rintro ⟨h, -, -⟩
    rw [htext] at h
    exact Option.some_ne_none t h
  · intro rm padding e h
    rw [formatElem_eq] at h
    by_cases hp : (formatBody rm padding e).text = none ∧
        (formatBody rm padding e).children.length = 0 ∧ rm = true
    · exact ⟨hp.1, List.length_eq_zero.mp hp.2.1, hp.2.2⟩
    · rw [if_neg hp] at h
      exact absurd h (by simp)

/-- **C10 witness**: a childless element with text `""` is retained under
pruning. -/
theorem claim_C10_witness :
    formatElem true 8 (.mk ("note".toList) [] (some []) [] none) =
      some (formatBody true 8 (.mk ("note".toList) [] (some []) [] none)) :=
  claim_C10.1 8 (.mk ("note".toList) [] (some []) [] none) []
    (by rw [formatBody_eq]; rfl)

/-! ## Idempotence of the pipeline (C6)

Running `_format_texts` again on a tree it has already normalized is the
identity.  The proof follows the execution: a second run retraces the
first — classification of already-canonical tags is stable, re-wrapping a
wrapped paragraph at the same indent is the identity, and a tree whose
empties have been pruned has nothing more to prune.  Nested divisions
complicate matters (their children are first re-wrapped by an enclosing
classified element's `_format` at one indent, then re-formatted at the
base indent when the walk reaches the division), so the development keeps
track of trees that agree up to (a) re-wrapping of texts with the same
words and (b) canonical retagging of division children. -/

/-- The tag of the second tree is the tag of the first, or its canonical
rewrite by classification. -/
def tagRel (t₁ t₂ : Str) : Prop :=
  t₂ = t₁ ∨ ∃ c, classify t₁ = some (c, t₂)

/-- Texts are equal. -/
def textEq (x₁ x₂ : Option Str) : Prop := x₂ = x₁

/-- Texts are both absent, or both present with the same word list (and
equal outright when that list is empty — blank texts are never touched by
the wrapper). -/
def textEquiv : Option Str → Option Str → Prop
  | none, none => True
  | some t₁, some t₂ => wordsOf t₂ = wordsOf t₁ ∧ (wordsOf t₁ = [] → t₂ = t₁)
  | _, _ => False

mutual

/-- Trees relate when attributes and tails are equal, texts relate by
`tr`, tags are equal (or, when the flag is set — the node is a division
child — related by canonical retagging), and children relate with the
flag set exactly when the node is a division. -/
inductive ERel (tr : Option Str → Option Str → Prop) : Bool → Elem → Elem → Prop where
  | mk {b : Bool} {t₁ t₂ : Str} {a : List (Str × Str)} {x₁ x₂ : Option Str}
      {cs₁ cs₂ : List Elem} {tl : Option Str} :
      (b = true → tagRel t₁ t₂) → (b = false → t₂ = t₁) → tr x₁ x₂ →
      ERelL tr (decide (t₁ = divTag)) cs₁ cs₂ →
      ERel tr b (.mk t₁ a x₁ cs₁ tl) (.mk t₂ a x₂ cs₂ tl)

inductive ERelL (tr : Option Str → Option Str → Prop) : Bool → List Elem → List Elem → Prop where
  | nil {b : Bool} : ERelL tr b [] []
  | cons {b : Bool} {c₁ c₂ : Elem} {cs₁ cs₂ : List Elem} :
      ERel tr b c₁ c₂ → ERelL tr b cs₁ cs₂ → ERelL tr b (c₁ :: cs₁) (c₂ :: cs₂)

end

/-- Relation on `formatElem` results: both pruned, or both kept and
related. -/
def optRel (R : Elem → Elem → Prop) : Option Elem → Option Elem → Prop
  | none, none => True
  | some a, some b => R a b
  | _, _ => False

/-- Every successful classification outputs one of the nine canonical
category/tag pairs. -/
theorem classify_cases {t : Str} {c tg : Str} (h : classify t = some (c, tg)) :
    (c, tg) ∈ [("u".toList, TEI_NS ++ "u".toList),
      ("note".toList, TEI_NS ++ "note".toList),
      ("pb".toList, TEI_NS ++ "pb".toList),
      ("seg".toList, TEI_NS ++ "seg".toList),
      ("p".toList, TEI_NS ++ "p".toList),
      ("span".toList, TEI_NS ++ "span".toList),
      ("title".toList, TEI_NS ++ "title".toList),
      ("head".toList, TEI_NS ++ "head".toList),
      ("author".toList, TEI_NS ++ "author".toList)] := by
  rw [classify] at h
  by_cases h1 : t = TEI_NS ++ "u".toList
  · rw [if_pos h1] at h
    simp only [Option.some.injEq, Prod.mk.injEq] at h
    obtain ⟨hc, htg⟩ := h
    subst hc
    subst htg
    try subst h1
    decide
  rw [if_neg h1] at h
  by_cases h2 : t = TEI_NS ++ "note".toList
  · rw [if_pos h2] at h
    simp only [Option.some.injEq, Prod.mk.injEq] at h
    obtain ⟨hc, htg⟩ := h
    subst hc
    subst htg
    try subst h2
    decide
  rw [if_neg h2] at h
  by_cases h3 : t = TEI_NS ++ "pb".toList
  · rw [if_pos h3] at h
    simp only [Option.some.injEq, Prod.mk.injEq] at h
    obtain ⟨hc, htg⟩ := h
    subst hc
    subst htg
    try subst h3
    decide
  rw [if_neg h3] at h
  by_cases h4 : t = "pb".toList
  · rw [if_pos h4] at h
    simp only [Option.some.injEq, Prod.mk.injEq] at h
    obtain ⟨hc, htg⟩ := h
    subst hc
    subst htg
    try subst h4
    decide
  rw [if_neg h4] at h
  by_cases h5 : t = TEI_NS ++ "seg".toList
  · rw [if_pos h5] at h
    simp only [Option.some.injEq, Prod.mk.injEq] at h
    obtain ⟨hc, htg⟩ := h
    subst hc
    subst htg
    try subst h5
    decide
  rw [if_neg h5] at h
  by_cases h6 : t = "u".toList
  · rw [if_pos h6] at h
    simp only [Option.some.injEq, Prod.mk.injEq] at h
    obtain ⟨hc, htg⟩ := h
    subst hc
    subst htg
    try subst h6
    decide
  rw [if_neg h6] at h
  by_cases h7 : t = "p".toList
  · rw [if_pos h7] at h
    simp only [Option.some.injEq, Prod.mk.injEq] at h
    obtain ⟨hc, htg⟩ := h
    subst hc
    subst htg
    try subst h7
    decide
  rw [if_neg h7] at h
  by_cases h8 : t = TEI_NS ++ "p".toList
  · rw [if_pos h8] at h
    simp only [Option.some.injEq, Prod.mk.injEq] at h
    obtain ⟨hc, htg⟩ := h
    subst hc
    subst htg
    try subst h8
    decide
  rw [if_neg h8] at h
  by_cases h9 : t = "span".toList
  · rw [if_pos h9] at h
    simp only [Option.some.injEq, Prod.mk.injEq] at h
    obtain ⟨hc, htg⟩ := h
    subst hc
    subst htg
    try subst h9
    decide
  rw [if_neg h9] at h
  by_cases h10 : t = TEI_NS ++ "span".toList
  · rw [if_pos h10] at h
    simp only [Option.some.injEq, Prod.mk.injEq] at h
    obtain ⟨hc, htg⟩ := h
    subst hc
    subst htg
    try subst h10
    decide
  rw [if_neg h10] at h
  by_cases h11 : t = "title".toList
  · rw [if_pos h11] at h
    simp only [Option.some.injEq, Prod.mk.injEq] at h
    obtain ⟨hc, htg⟩ := h
    subst hc
    subst htg
    try subst h11
    decide
  rw [if_neg h11] at h
  by_cases h12 : t = TEI_NS ++ "title".toList
  · rw [if_pos h12] at h
    simp only [Option.some.injEq, Prod.mk.injEq] at h
    obtain ⟨hc, htg⟩ := h
    subst hc
    subst htg
    try subst h12
    decide
  rw [if_neg h12] at h
  by_cases h13 : t = "head".toList
  · rw [if_pos h13] at h
    simp only [Option.some.injEq, Prod.mk.injEq] at h
    obtain ⟨hc, htg⟩ := h
    subst hc
    subst htg
    try subst h13
    decide
  rw [if_neg h13] at h
  by_cases h14 : t = TEI_NS ++ "head".toList
  · rw [if_pos h14] at h
    simp only [Option.some.injEq, Prod.mk.injEq] at h
    obtain ⟨hc, htg⟩ := h
    subst hc
    subst htg
    try subst h14
    decide
  rw [if_neg h14] at h
  by_cases h15 : t = TEI_NS ++ "author".toList
  · rw [if_pos h15] at h
    simp only [Option.some.injEq, Prod.mk.injEq] at h
    obtain ⟨hc, htg⟩ := h
    subst hc
    subst htg
    try subst h15
    decide
  rw [if_neg h15] at h
  exact Option.noConfusion h

theorem cls_stable {t : Str} {c tg : Str} (h : classify t = some (c, tg)) :
    classify tg = some (c, tg) := by
  have hmem := classify_cases h
  simp only [List.mem_cons, List.not_mem_nil, or_false, Prod.mk.injEq] at hmem
  rcases hmem with ⟨hc, htg⟩ | ⟨hc, htg⟩ | ⟨hc, htg⟩ | ⟨hc, htg⟩ | ⟨hc, htg⟩ |
    ⟨hc, htg⟩ | ⟨hc, htg⟩ | ⟨hc, htg⟩ | ⟨hc, htg⟩ <;>
    (subst hc; subst htg; decide)

theorem cls_in_ne_div {t : Str} {p : Str × Str} (h : classify t = some p) :
    t ≠ divTag := by
  intro heq
  rw [heq] at h
  have hdiv : classify divTag = none := by decide
  rw [hdiv] at h
  exact absurd h (by simp)

theorem cls_out_ne_div {t c tg : Str} (h : classify t = some (c, tg)) :
    tg ≠ divTag :=
  cls_in_ne_div (cls_stable h)

theorem cls_of_tagRel {t₁ t₂ c tg : Str} (hrel : tagRel t₁ t₂)
    (h : classify t₁ = some (c, tg)) : classify t₂ = some (c, tg) := by
  rcases hrel with heq | ⟨c', hc'⟩
  · rw [heq, h]
  · rw [hc'] at h
    simp only [Option.some.injEq, Prod.mk.injEq] at h
    obtain ⟨hc, htg⟩ := h
    subst hc
    subst htg
    exact cls_stable hc'

theorem tagRel_div_iff {t₁ t₂ : Str} (h : tagRel t₁ t₂) :
    (t₁ = divTag) ↔ (t₂ = divTag) := by
  rcases h with heq | ⟨c, hc⟩
  · rw [heq]
  · constructor
    · intro h1; exact absurd h1 (cls_in_ne_div hc)
    · intro h2; exact absurd h2 (cls_out_ne_div hc)

theorem textEquiv_refl (x : Option Str) : textEquiv x x := by
  cases x <;> simp [textEquiv]

theorem textEq_imp_textEquiv {x₁ x₂ : Option Str} (h : textEq x₁ x₂) :
    textEquiv x₁ x₂ := by
  rw [textEq] at h
  subst h
  exact textEquiv_refl _

theorem textEquiv_trans {x₁ x₂ x₃ : Option Str} (h1 : textEquiv x₁ x₂)
    (h2 : textEquiv x₂ x₃) : textEquiv x₁ x₃ := by
  cases x₁ with
  | none =>
    cases x₂ with
    | none =>
      cases x₃ with
      | none => trivial
      | some t₃ => exact h2.elim
    | some t₂ => exact h1.elim
  | some t₁ =>
    cases x₂ with
    | none => exact h1.elim
    | some t₂ =>
      cases x₃ with
      | none => exact h2.elim
      | some t₃ =>
        obtain ⟨hw1, he1⟩ := h1
        obtain ⟨hw2, he2⟩ := h2
        exact ⟨hw2.trans hw1, fun hnil => (he2 (hw1.trans hnil)).trans (he1 hnil)⟩

theorem tagRel_refl (t : Str) : tagRel t t := Or.inl rfl

theorem tagRel_trans {t₁ t₂ t₃ : Str} (h1 : tagRel t₁ t₂) (h2 : tagRel t₂ t₃) :
    tagRel t₁ t₃ := by
  rcases h2 with heq | ⟨c, hc⟩
  · rw [heq]; exact h1
  · rcases h1 with heq' | ⟨c', hc'⟩
    · rw [heq'] at hc
      exact Or.inr ⟨c, hc⟩
    · have := cls_stable hc'
      rw [this] at hc
      simp only [Option.some.injEq, Prod.mk.injEq] at hc
      exact Or.inr ⟨c', by rw [hc', hc.2]⟩

theorem esize_mk (t : Str) (a : List (Str × Str)) (x : Option Str) (cs : List Elem)
    (tl : Option Str) : esize (.mk t a x cs tl) = 1 + esizeL cs := by
  rw [esize]

theorem esizeL_nil : esizeL [] = 0 := by rw [esizeL]

theorem esizeL_cons (c : Elem) (cs : List Elem) :
    esizeL (c :: cs) = 1 + esize c + esizeL cs := by
  rw [esizeL]

theorem esize_pos (e : Elem) : 1 ≤ esize e := by
  match e with
  | .mk t a x cs tl => rw [esize_mk]; omega

theorem ERelL_length {tr : Option Str → Option Str → Prop} :
    ∀ {b : Bool} (cs ds : List Elem), ERelL tr b cs ds → ds.length = cs.length := by
  intro b cs
  induction cs with
  | nil => intro ds h; cases h; rfl
  | cons c rest ih =>
    intro ds h
    cases h with
    | cons hc hrest => simp [ih _ hrest]

/-- The text-wrapping step is idempotent for interior indents ≥ 1. -/
theorem textStep_idem {p : Int} (hp : -1 ≤ p) (x : Option Str) :
    textStep (textStep x p) p = textStep x p := by
  cases x with
  | none => rfl
  | some t =>
    rw [textStep]
    by_cases hg : 0 < (pyStrip t).length
    · rw [if_pos hg, textStep]
      have hw : wordsOf (formatParagraph t (p + 2)) = wordsOf t :=
        wordsOf_formatParagraph (by omega) t
      have hg2 : 0 < (pyStrip (formatParagraph t (p + 2))).length := by
        rw [gate_iff_wordsOf, hw]
        exact (gate_iff_wordsOf t).mp hg
      rw [if_pos hg2, formatParagraph_stable (by omega) t (p + 2)]
    · rw [if_neg hg, textStep, if_neg hg]

theorem formatIdem_aux : ∀ n : Nat,
    (∀ e : Elem, esize e ≤ n → ∀ (rm : Bool) (p : Int), -1 ≤ p →
      formatBody rm p (formatBody rm p e) = formatBody rm p e) ∧
    (∀ cs : List Elem, esizeL cs ≤ n → ∀ (rm : Bool) (q : Int), -1 ≤ q →
      formatChildren rm q (formatChildren rm q cs) = formatChildren rm q cs) := by
  intro n
  induction n with
  | zero =>
    constructor
    · intro e he
      exact absurd he (by have := esize_pos e; omega)
    · intro cs hcs rm q hq
      match cs with
      | [] => rw [formatChildren_nil, formatChildren_nil]
      | c :: rest =>
        rw [esizeL_cons] at hcs
        exact absurd hcs (by have := esize_pos c; omega)
  | succ n ih =>
    constructor
    · intro e he rm p hp
      match e with
      | .mk t a x cs tl =>
        rw [esize_mk] at he
        rw [formatBody_eq]
        simp only [Elem.tag, Elem.attrib, Elem.text, Elem.children, Elem.tailText]
        rw [formatBody_eq]
        simp only [Elem.tag, Elem.attrib, Elem.text, Elem.children, Elem.tailText]
        rw [textStep_idem hp, ih.2 cs (by omega) rm (p + 2) (by omega)]
    · intro cs hcs rm q hq
      match cs with
      | [] => rw [formatChildren_nil, formatChildren_nil]
      | c :: rest =>
        rw [esizeL_cons] at hcs
        rw [formatChildren_cons]
        rcases hfe : formatElem rm q c with _ | c'
        · exact ih.2 rest (by omega) rm q hq
        · have hc' : c' = formatBody rm q c := by
            rw [formatElem_eq] at hfe
            by_cases hcond : (formatBody rm q c).text = none ∧
                (formatBody rm q c).children.length = 0 ∧ rm = true
            · rw [if_pos hcond] at hfe; exact absurd hfe (by simp)
            · rw [if_neg hcond] at hfe
              simp only [Option.some.injEq] at hfe
              rw [hfe]
          have hbodyidem : formatBody rm q c' = c' := by
            rw [hc']
            exact ih.1 c (by have := esize_pos c; omega) rm q hq
          have hfe' : formatElem rm q c' = some c' := by
            rw [formatElem_eq, hbodyidem]
            rw [formatElem_eq] at hfe
            by_cases hcond : (formatBody rm q c).text = none ∧
                (formatBody rm q c).children.length = 0 ∧ rm = true
            · rw [if_pos hcond] at hfe; exact absurd hfe (by simp)
            · rw [if_neg (hc' ▸ hcond)]
          rw [formatChildren_cons, hfe']
          rw [ih.2 rest (by omega) rm q hq]

theorem formatBody_idem {rm : Bool} {p : Int} (hp : -1 ≤ p) (e : Elem) :
    formatBody rm p (formatBody rm p e) = formatBody rm p e :=
  (formatIdem_aux (esize e)).1 e (le_refl _) rm p hp

theorem formatChildren_idem {rm : Bool} {q : Int} (hq : -1 ≤ q) (cs : List Elem) :
    formatChildren rm q (formatChildren rm q cs) = formatChildren rm q cs :=
  (formatIdem_aux (esizeL cs)).2 cs (le_refl _) rm q hq

/-- A kept element is the format body. -/
theorem formatElem_some_eq {rm : Bool} {p : Int} {e e' : Elem}
    (h : formatElem rm p e = some e') :
    e' = formatBody rm p e ∧
      ¬ ((formatBody rm p e).text = none ∧
          (formatBody rm p e).children.length = 0 ∧ rm = true) := by
  rw [formatElem_eq] at h
  by_cases hcond : (formatBody rm p e).text = none ∧
      (formatBody rm p e).children.length = 0 ∧ rm = true
  · rw [if_pos hcond] at h; exact absurd h (by simp)
  · rw [if_neg hcond] at h
    simp only [Option.some.injEq] at h
    exact ⟨h.symm, hcond⟩

/-- `_format` is idempotent on kept elements. -/
theorem formatElem_idem {rm : Bool} {p : Int} (hp : -1 ≤ p) {e e' : Elem}
    (h : formatElem rm p e = some e') : formatElem rm p e' = some e' := by
  obtain ⟨he', hcond⟩ := formatElem_some_eq h
  rw [formatElem_eq]
  have hbody : formatBody rm p e' = e' := by
    rw [he']
    exact formatBody_idem hp e
  rw [hbody, if_neg (he' ▸ hcond)]

/-- The text step maps word-equivalent texts to *equal* texts (re-wrapping
depends only on the words, and blank texts are equal outright). -/
theorem textStep_congr {x₁ x₂ : Option Str} (h : textEquiv x₁ x₂) (p : Int) :
    textStep x₂ p = textStep x₁ p := by
  cases x₁ with
  | none => cases x₂ with
    | none => rfl
    | some t₂ => exact h.elim
  | some t₁ =>
    cases x₂ with
    | none => exact h.elim
    | some t₂ =>
      obtain ⟨hw, he⟩ := h
      rw [textStep, textStep]
      by_cases hg : 0 < (pyStrip t₁).length
      · have hg2 : 0 < (pyStrip t₂).length := by
          rw [gate_iff_wordsOf, hw]
          exact (gate_iff_wordsOf t₁).mp hg
        rw [if_pos hg, if_pos hg2, formatParagraph, formatParagraph, hw]
      · have hnil : wordsOf t₁ = [] := by
          by_contra hne
          exact hg ((gate_iff_wordsOf t₁).mpr hne)
        have hg2 : ¬ 0 < (pyStrip t₂).length := by
          rw [gate_iff_wordsOf, hw, hnil]
          simp
        rw [if_neg hg, if_neg hg2, he hnil]

/-- Formatting on word-equivalent trees produces *equal-texts*-related
results: the prune decisions agree, tags pass through unchanged, and the
wrapped texts coincide. -/
theorem formatCongr_aux : ∀ n : Nat,
    (∀ e : Elem, esize e ≤ n → ∀ (f : Elem) (b : Bool) (rm : Bool) (p : Int), -1 ≤ p →
      ERel textEquiv b e f →
        optRel (ERel textEq b) (formatElem rm p e) (formatElem rm p f)) ∧
    (∀ cs : List Elem, esizeL cs ≤ n → ∀ (ds : List Elem) (b : Bool) (rm : Bool) (q : Int),
      -1 ≤ q → ERelL textEquiv b cs ds →
        ERelL textEq b (formatChildren rm q cs) (formatChildren rm q ds)) := by
  intro n
  induction n with
  | zero =>
    constructor
    · intro e he
      exact absurd he (by have := esize_pos e; omega)
    · intro cs hcs ds b rm q hq hrel
      cases hrel with
      | nil => simp only [formatChildren_nil]; exact .nil
      | @cons b c₁ c₂ rest₁ rest₂ hc hrest =>
        rw [esizeL_cons] at hcs
        exact absurd hcs (by have := esize_pos c₁; omega)
  | succ n ih =>
    constructor
    · intro e he f b rm p hp hrel
      cases hrel with
      | @mk b t₁ t₂ a x₁ x₂ cs₁ cs₂ tl htag1 htag2 htx hch =>
        rw [esize_mk] at he
        have hbody1 := formatBody_eq rm p (.mk t₁ a x₁ cs₁ tl)
        have hbody2 := formatBody_eq rm p (.mk t₂ a x₂ cs₂ tl)
        simp only [Elem.tag, Elem.attrib, Elem.text, Elem.children, Elem.tailText] at hbody1 hbody2
        have htxeq : textStep x₂ p = textStep x₁ p := textStep_congr htx p
        have hchrel : ERelL textEq (decide (t₁ = divTag))
            (formatChildren rm (p + 2) cs₁) (formatChildren rm (p + 2) cs₂) :=
          ih.2 cs₁ (by omega) cs₂ _ rm (p + 2) (by omega) hch
        have hlen : (formatChildren rm (p + 2) cs₂).length =
            (formatChildren rm (p + 2) cs₁).length := ERelL_length _ _ hchrel
        have hout : ERel textEq b (formatBody rm p (.mk t₁ a x₁ cs₁ tl))
            (formatBody rm p (.mk t₂ a x₂ cs₂ tl)) := by
          rw [hbody1, hbody2]
          exact .mk htag1 htag2 htxeq hchrel
        rw [formatElem_eq, formatElem_eq]
        by_cases hcond : (formatBody rm p (.mk t₁ a x₁ cs₁ tl)).text = none ∧
            (formatBody rm p (.mk t₁ a x₁ cs₁ tl)).children.length = 0 ∧ rm = true
        · have hcond2 : (formatBody rm p (.mk t₂ a x₂ cs₂ tl)).text = none ∧
              (formatBody rm p (.mk t₂ a x₂ cs₂ tl)).children.length = 0 ∧ rm = true := by
            rw [hbody2] at *
            rw [hbody1] at hcond
            simp only [Elem.text, Elem.children] at *
            exact ⟨by rw [htxeq]; exact hcond.1, by rw [hlen]; exact hcond.2.1, hcond.2.2⟩
          rw [if_pos hcond, if_pos hcond2]
          trivial
        · have hcond2 : ¬ ((formatBody rm p (.mk t₂ a x₂ cs₂ tl)).text = none ∧
              (formatBody rm p (.mk t₂ a x₂ cs₂ tl)).children.length = 0 ∧ rm = true) := by
            intro hc2
            apply hcond
            rw [hbody2] at hc2
            rw [hbody1]
            simp only [Elem.text, Elem.children] at *
            exact ⟨by rw [← htxeq]; exact hc2.1, by rw [← hlen]; exact hc2.2.1, hc2.2.2⟩
          rw [if_neg hcond, if_neg hcond2]
          exact hout
    · intro cs hcs ds b rm q hq hrel
      cases hrel with
      | nil => simp only [formatChildren_nil]; exact .nil
      | @cons b c₁ c₂ rest₁ rest₂ hc hrest =>
        rw [esizeL_cons] at hcs
        rw [formatChildren_cons, formatChildren_cons]
        have hopt := ih.1 c₁ (by have := esize_pos c₁; omega) c₂ b rm q hq hc
        have hrest' := ih.2 rest₁ (by omega) rest₂ b rm q hq hrest
        rcases hfe1 : formatElem rm q c₁ with _ | c₁' <;>
          rcases hfe2 : formatElem rm q c₂ with _ | c₂'
        · exact hrest'
        · rw [hfe1, hfe2] at hopt; exact hopt.elim
        · rw [hfe1, hfe2] at hopt; exact hopt.elim
        · rw [hfe1, hfe2] at hopt
          exact .cons hopt hrest'

theorem formatElem_congr {b rm : Bool} {p : Int} (hp : -1 ≤ p) {e f : Elem}
    (h : ERel textEquiv b e f) :
    optRel (ERel textEq b) (formatElem rm p e) (formatElem rm p f) :=
  (formatCongr_aux (esize e)).1 e (le_refl _) f b rm p hp h

theorem formatChildren_congr {b rm : Bool} {q : Int} (hq : -1 ≤ q) {cs ds : List Elem}
    (h : ERelL textEquiv b cs ds) :
    ERelL textEq b (formatChildren rm q cs) (formatChildren rm q ds) :=
  (formatCongr_aux (esizeL cs)).2 cs (le_refl _) ds b rm q hq h

mutual

/-- "Nothing prunable": no node of the tree has absent text together with
an empty child list.  This is the invariant `_format` establishes under
pruning. -/
inductive NP : Elem → Prop where
  | mk {t : Str} {a : List (Str × Str)} {x : Option Str} {cs : List Elem} {tl : Option Str} :
      (x = none → cs ≠ []) → NPL cs → NP (.mk t a x cs tl)

inductive NPL : List Elem → Prop where
  | nil : NPL []
  | cons {c : Elem} {cs : List Elem} : NP c → NPL cs → NPL (c :: cs)

end

/-- `NP`, required only when pruning is enabled. -/
def NPif (rm : Bool) (e : Elem) : Prop := rm = true → NP e

def NPLif (rm : Bool) (cs : List Elem) : Prop := rm = true → NPL cs

theorem NPLif_cons {rm : Bool} {c : Elem} {cs : List Elem} (h : NPLif rm (c :: cs)) :
    NPif rm c ∧ NPLif rm cs := by
  constructor
  · intro hrm
    cases h hrm with
    | cons hc _ => exact hc
  · intro hrm
    cases h hrm with
    | cons _ hcs => exact hcs

theorem textStep_none_iff (x : Option Str) (p : Int) :
    textStep x p = none ↔ x = none := by
  cases x with
  | none => simp [textStep]
  | some t =>
    rw [textStep]
    by_cases hg : 0 < (pyStrip t).length
    · rw [if_pos hg]; simp
    · rw [if_neg hg]

/-- Formatting with pruning leaves nothing prunable. -/
theorem formatNP_aux : ∀ n : Nat,
    (∀ e : Elem, esize e ≤ n → ∀ (p : Int) (e' : Elem),
      formatElem true p e = some e' → NP e') ∧
    (∀ cs : List Elem, esizeL cs ≤ n → ∀ p : Int, NPL (formatChildren true p cs)) := by
  intro n
  induction n with
  | zero =>
    constructor
    · intro e he
      exact absurd he (by have := esize_pos e; omega)
    · intro cs hcs p
      match cs with
      | [] => rw [formatChildren_nil]; exact .nil
      | c :: rest =>
        rw [esizeL_cons] at hcs
        exact absurd hcs (by have := esize_pos c; omega)
  | succ n ih =>
    constructor
    · intro e he p e' hfe
      obtain ⟨he', hcond⟩ := formatElem_some_eq hfe
      match e, he with
      | .mk t a x cs tl, he =>
        rw [esize_mk] at he
        rw [formatBody_eq] at he' hcond
        simp only [Elem.tag, Elem.attrib, Elem.text, Elem.children, Elem.tailText]
          at he' hcond
        subst he'
        refine .mk ?_ (ih.2 cs (by omega) (p + 2))
        intro hxnone hempty
        exact hcond ⟨hxnone, by rw [hempty]; rfl, trivial⟩
    · intro cs hcs p
      match cs with
      | [] => rw [formatChildren_nil]; exact .nil
      | c :: rest =>
        rw [esizeL_cons] at hcs
        rw [formatChildren_cons]
        rcases hfe : formatElem true p c with _ | c'
        · exact ih.2 rest (by omega) p
        · exact .cons (ih.1 c (by have := esize_pos c; omega) p c' hfe)
            (ih.2 rest (by omega) p)

theorem formatElem_NPif {rm : Bool} {p : Int} {e e' : Elem}
    (h : formatElem rm p e = some e') : NPif rm e' := by
  intro hrm
  subst hrm
  exact (formatNP_aux (esize e)).1 e (le_refl _) p e' h

theorem formatChildren_NPLif (rm : Bool) (p : Int) (cs : List Elem) :
    NPLif rm (formatChildren rm p cs) := by
  intro hrm
  subst hrm
  exact (formatNP_aux (esizeL cs)).2 cs (le_refl _) p

/-- On a tree with nothing prunable, `_format` keeps every node: the
result is the format body, and child lists map through. -/
theorem formatKeep_aux : ∀ n : Nat,
    (∀ e : Elem, esize e ≤ n → ∀ (rm : Bool) (p : Int), NPif rm e →
      formatElem rm p e = some (formatBody rm p e)) ∧
    (∀ cs : List Elem, esizeL cs ≤ n → ∀ (rm : Bool) (p : Int), NPLif rm cs →
      formatChildren rm p cs = cs.map (formatBody rm p)) := by
  intro n
  induction n with
  | zero =>
    constructor
    · intro e he
      exact absurd he (by have := esize_pos e; omega)
    · intro cs hcs rm p _
      match cs with
      | [] => rw [formatChildren_nil]; rfl
      | c :: rest =>
        rw [esizeL_cons] at hcs
        exact absurd hcs (by have := esize_pos c; omega)
  | succ n ih =>
    constructor
    · intro e he rm p hnp
      rw [formatElem_eq]
      cases hrm : rm with
      | false =>
        rw [if_neg]
        rintro ⟨-, -, h⟩
        exact Bool.false_ne_true h
      | true =>
        subst hrm
        cases hnp rfl with
        | @mk t a x cs tl hne hnpl =>
          rw [esize_mk] at he
          rw [if_neg]
          rw [formatBody_eq]
          simp only [Elem.text, Elem.children, Elem.tag, Elem.attrib, Elem.tailText]
          rintro ⟨hxnone, hlen, -⟩
          have hx : x = none := (textStep_none_iff x p).mp hxnone
          have hcs : cs ≠ [] := hne hx
          rw [ih.2 cs (by omega) true (p + 2) (fun _ => hnpl)] at hlen
          rw [List.length_map] at hlen
          exact hcs (List.length_eq_zero.mp hlen)
    · intro cs hcs rm p hnp
      match cs with
      | [] => rw [formatChildren_nil]; rfl
      | c :: rest =>
        rw [esizeL_cons] at hcs
        obtain ⟨hnpc, hnprest⟩ := NPLif_cons hnp
        rw [formatChildren_cons,
          ih.1 c (by have := esize_pos c; omega) rm p hnpc,
          List.map_cons, ih.2 rest (by omega) rm p hnprest]

theorem formatElem_keep {rm : Bool} {p : Int} {e : Elem} (h : NPif rm e) :
    formatElem rm p e = some (formatBody rm p e) :=
  (formatKeep_aux (esize e)).1 e (le_refl _) rm p h

theorem formatChildren_keep {rm : Bool} {p : Int} {cs : List Elem} (h : NPLif rm cs) :
    formatChildren rm p cs = cs.map (formatBody rm p) :=
  (formatKeep_aux (esizeL cs)).2 cs (le_refl _) rm p h

/-- The text step yields a word-equivalent text (indent ≥ 1). -/
theorem textStep_equiv {p : Int} (hp : -1 ≤ p) (x : Option Str) :
    textEquiv x (textStep x p) := by
  cases x with
  | none => trivial
  | some t =>
    rw [textStep]
    by_cases hg : 0 < (pyStrip t).length
    · rw [if_pos hg]
      refine ⟨wordsOf_formatParagraph (by omega) t, fun hnil => ?_⟩
      exact absurd ((gate_iff_wordsOf t).mp hg) (by simp [hnil])
    · rw [if_neg hg]
      exact textEquiv_refl _

/-- On a tree with nothing prunable, the format body is word-equivalent to
the input (tags, attributes, structure unchanged; texts re-wrapped). -/
theorem formatRRel_aux : ∀ n : Nat,
    (∀ e : Elem, esize e ≤ n → ∀ (b rm : Bool) (p : Int), -1 ≤ p → NPif rm e →
      ERel textEquiv b e (formatBody rm p e)) ∧
    (∀ cs : List Elem, esizeL cs ≤ n → ∀ (b rm : Bool) (p : Int), -1 ≤ p → NPLif rm cs →
      ERelL textEquiv b cs (cs.map (formatBody rm p))) := by
  intro n
  induction n with
  | zero =>
    constructor
    · intro e he
      exact absurd he (by have := esize_pos e; omega)
    · intro cs hcs b rm p _ _
      match cs with
      | [] => exact .nil
      | c :: rest =>
        rw [esizeL_cons] at hcs
        exact absurd hcs (by have := esize_pos c; omega)
  | succ n ih =>
    constructor
    · intro e he b rm p hp hnp
      match e with
      | .mk t a x cs tl =>
        rw [esize_mk] at he
        have hnpl : NPLif rm cs := by
          intro hrm
          cases hnp hrm with
          | mk _ hnpl => exact hnpl
        rw [formatBody_eq]
        simp only [Elem.tag, Elem.attrib, Elem.text, Elem.children, Elem.tailText]
        rw [formatChildren_keep hnpl]
        exact .mk (fun _ => tagRel_refl t) (fun _ => rfl) (textStep_equiv hp x)
          (ih.2 cs (by omega) _ rm (p + 2) (by omega) hnpl)
    · intro cs hcs b rm p hp hnp
      match cs with
      | [] => exact .nil
      | c :: rest =>
        rw [esizeL_cons] at hcs
        obtain ⟨hnpc, hnprest⟩ := NPLif_cons hnp
        exact .cons (ih.1 c (by have := esize_pos c; omega) b rm p hp hnpc)
          (ih.2 rest (by omega) b rm p hp hnprest)

theorem formatBody_RRel {b rm : Bool} {p : Int} (hp : -1 ≤ p) {e : Elem} (h : NPif rm e) :
    ERel textEquiv b e (formatBody rm p e) :=
  (formatRRel_aux (esize e)).1 e (le_refl _) b rm p hp h

theorem ERel_of_false {tr : Option Str → Option Str → Prop} {b : Bool} {e f : Elem}
    (h : ERel tr false e f) : ERel tr b e f := by
  cases h with
  | @mk _ t₁ t₂ a x₁ x₂ cs₁ cs₂ tl htag1 htag2 htx hch =>
    exact .mk (fun _ => Or.inl (htag2 rfl)) (fun _ => htag2 rfl) htx hch

theorem ERelL_of_false {tr : Option Str → Option Str → Prop} {b : Bool}
    {cs ds : List Elem} (h : ERelL tr false cs ds) : ERelL tr b cs ds := by
  induction cs generalizing ds with
  | nil => cases h; exact .nil
  | cons c rest ih =>
    cases h with
    | cons hc hrest => exact .cons (ERel_of_false hc) (ih hrest)

theorem ERel_refl_aux (tr : Option Str → Option Str → Prop) (hrefl : ∀ x, tr x x) :
    ∀ n : Nat, (∀ e : Elem, esize e ≤ n → ∀ b : Bool, ERel tr b e e) ∧
      (∀ cs : List Elem, esizeL cs ≤ n → ∀ b : Bool, ERelL tr b cs cs) := by
  intro n
  induction n with
  | zero =>
    constructor
    · intro e he
      exact absurd he (by have := esize_pos e; omega)
    · intro cs hcs b
      match cs with
      | [] => exact .nil
      | c :: rest =>
        rw [esizeL_cons] at hcs
        exact absurd hcs (by have := esize_pos c; omega)
  | succ n ih =>
    constructor
    · intro e he b
      match e with
      | .mk t a x cs tl =>
        rw [esize_mk] at he
        exact .mk (fun _ => tagRel_refl t) (fun _ => rfl) (hrefl x)
          (ih.2 cs (by omega) _)
    · intro cs hcs b
      match cs with
      | [] => exact .nil
      | c :: rest =>
        rw [esizeL_cons] at hcs
        exact .cons (ih.1 c (by have := esize_pos c; omega) b) (ih.2 rest (by omega) b)

theorem ERel_refl {tr : Option Str → Option Str → Prop} (hrefl : ∀ x, tr x x)
    (b : Bool) (e : Elem) : ERel tr b e e :=
  (ERel_refl_aux tr hrefl (esize e)).1 e (le_refl _) b

theorem ERelL_refl {tr : Option Str → Option Str → Prop} (hrefl : ∀ x, tr x x)
    (b : Bool) (cs : List Elem) : ERelL tr b cs cs :=
  (ERel_refl_aux tr hrefl (esizeL cs)).2 cs (le_refl _) b

theorem ERel_trans_aux (tr : Option Str → Option Str → Prop)
    (htr : ∀ x y z, tr x y → tr y z → tr x z) :
    ∀ n : Nat,
      (∀ e₁ : Elem, esize e₁ ≤ n → ∀ (b : Bool) (e₂ e₃ : Elem),
        ERel tr b e₁ e₂ → ERel tr b e₂ e₃ → ERel tr b e₁ e₃) ∧
      (∀ cs₁ : List Elem, esizeL cs₁ ≤ n → ∀ (b : Bool) (cs₂ cs₃ : List Elem),
        ERelL tr b cs₁ cs₂ → ERelL tr b cs₂ cs₃ → ERelL tr b cs₁ cs₃) := by
  intro n
  induction n with
  | zero =>
    constructor
    · intro e he
      exact absurd he (by have := esize_pos e; omega)
    · intro cs hcs b cs₂ cs₃ h12 h23
      cases h12 with
      | nil => exact h23
      | @cons b c₁ c₂ rest₁ rest₂ hc hrest =>
        rw [esizeL_cons] at hcs
        exact absurd hcs (by have := esize_pos c₁; omega)
  | succ n ih =>
    constructor
    · intro e₁ he b e₂ e₃ h12 h23
      cases h12 with
      | @mk _ t₁ t₂ a x₁ x₂ cs₁ cs₂ tl htag1 htag2 htx hch =>
        cases h23 with
        | @mk _ _ t₃ _ _ x₃ _ cs₃ _ htag1' htag2' htx' hch' =>
          rw [esize_mk] at he
          have hdiv : decide (t₂ = divTag) = decide (t₁ = divTag) := by
            cases b with
            | false => rw [htag2 rfl]
            | true => exact decide_eq_decide.mpr (tagRel_div_iff (htag1 rfl)).symm
          rw [hdiv] at hch'
          refine .mk ?_ ?_ (htr _ _ _ htx htx') (ih.2 cs₁ (by omega) _ cs₂ cs₃ hch hch')
          · intro hb
            exact tagRel_trans (htag1 hb) (htag1' hb)
          · intro hb
            rw [htag2' hb, htag2 hb]
    · intro cs₁ hcs b cs₂ cs₃ h12 h23
      cases h12 with
      | nil => exact h23
      | @cons b c₁ c₂ rest₁ rest₂ hc hrest =>
        rw [esizeL_cons] at hcs
        cases h23 with
        | @cons _ _ c₃ _ rest₃ hc' hrest' =>
          exact .cons (ih.1 c₁ (by have := esize_pos c₁; omega) b c₂ c₃ hc hc')
            (ih.2 rest₁ (by omega) b rest₂ rest₃ hrest hrest')

theorem ERel_trans_equiv {b : Bool} {e₁ e₂ e₃ : Elem}
    (h12 : ERel textEquiv b e₁ e₂) (h23 : ERel textEquiv b e₂ e₃) :
    ERel textEquiv b e₁ e₃ :=
  (ERel_trans_aux textEquiv (fun _ _ _ => textEquiv_trans) (esize e₁)).1 e₁ (le_refl _)
    b e₂ e₃ h12 h23

theorem ERelL_trans_equiv {b : Bool} {cs₁ cs₂ cs₃ : List Elem}
    (h12 : ERelL textEquiv b cs₁ cs₂) (h23 : ERelL textEquiv b cs₂ cs₃) :
    ERelL textEquiv b cs₁ cs₃ :=
  (ERel_trans_aux textEquiv (fun _ _ _ => textEquiv_trans) (esizeL cs₁)).2 cs₁ (le_refl _)
    b cs₂ cs₃ h12 h23

theorem ERel_of_textEq_aux : ∀ n : Nat,
    (∀ e : Elem, esize e ≤ n → ∀ (b : Bool) (f : Elem),
      ERel textEq b e f → ERel textEquiv b e f) ∧
    (∀ cs : List Elem, esizeL cs ≤ n → ∀ (b : Bool) (ds : List Elem),
      ERelL textEq b cs ds → ERelL textEquiv b cs ds) := by
  intro n
  induction n with
  | zero =>
    constructor
    · intro e he
      exact absurd he (by have := esize_pos e; omega)
    · intro cs hcs b ds h
      cases h with
      | nil => exact .nil
      | @cons b c₁ c₂ rest₁ rest₂ hc hrest =>
        rw [esizeL_cons] at hcs
        exact absurd hcs (by have := esize_pos c₁; omega)
  | succ n ih =>
    constructor
    · intro e he b f h
      cases h with
      | @mk _ t₁ t₂ a x₁ x₂ cs₁ cs₂ tl htag1 htag2 htx hch =>
        rw [esize_mk] at he
        exact .mk htag1 htag2 (textEq_imp_textEquiv htx) (ih.2 cs₁ (by omega) _ cs₂ hch)
    · intro cs hcs b ds h
      cases h with
      | nil => exact .nil
      | @cons b c₁ c₂ rest₁ rest₂ hc hrest =>
        rw [esizeL_cons] at hcs
        exact .cons (ih.1 c₁ (by have := esize_pos c₁; omega) b c₂ hc)
          (ih.2 rest₁ (by omega) b rest₂ hrest)

theorem ERel_of_textEq {b : Bool} {e f : Elem} (h : ERel textEq b e f) :
    ERel textEquiv b e f :=
  (ERel_of_textEq_aux (esize e)).1 e (le_refl _) b f h

theorem ERelL_of_textEq {b : Bool} {cs ds : List Elem} (h : ERelL textEq b cs ds) :
    ERelL textEquiv b cs ds :=
  (ERel_of_textEq_aux (esizeL cs)).2 cs (le_refl _) b ds h

/-! ### Inversion lemmas for the walk -/

theorem walkList_ok_nil {rm : Bool} {p : Int} {ds : List Elem}
    (h : walkList rm p [] = .ok ds) : ds = [] := by
  rw [walkList_nil] at h
  simpa using h.symm

theorem walkList_ok_cons {rm : Bool} {p : Int} {c : Elem} {rest ds : List Elem}
    (h : walkList rm p (c :: rest) = .ok ds) :
    ∃ c' rest', walk rm p c = .ok c' ∧ walkList rm p rest = .ok rest' ∧
      ds = c' :: rest' := by
  rw [walkList_cons] at h
  rcases hw : walk rm p c with s | c'
  · rw [hw] at h; exact absurd h (by simp)
  · rw [hw] at h
    rcases hrest : walkList rm p rest with s | rest'
    · rw [hrest] at h; exact absurd h (by simp)
    · rw [hrest] at h
      simp only [Except.ok.injEq] at h
      exact ⟨c', rest', rfl, rfl, h.symm⟩

theorem walk_ok_shape {rm : Bool} {p : Int} {e d : Elem} (h : walk rm p e = .ok d) :
    ∃ cs cs', divStep rm p e = .ok cs ∧ walkList rm p cs = .ok cs' ∧
      d = .mk e.tag e.attrib e.text cs' e.tailText := by
  rw [walk_eq] at h
  rcases hds : divStep rm p e with s | cs
  · rw [hds] at h; exact absurd h (by simp)
  · simp only [hds] at h
    rcases hwl : walkList rm p cs with s | cs'
    · rw [hwl] at h; exact absurd h (by simp)
    · rw [hwl] at h
      simp only [Except.ok.injEq] at h
      exact ⟨cs, cs', rfl, hwl, h.symm⟩

theorem walkList_length {rm : Bool} {p : Int} :
    ∀ {cs ds : List Elem}, walkList rm p cs = .ok ds → ds.length = cs.length := by
  intro cs
  induction cs with
  | nil => intro ds h; rw [walkList_ok_nil h]
  | cons c rest ih =>
    intro ds h
    obtain ⟨c', rest', _, hrest, hds⟩ := walkList_ok_cons h
    rw [hds]
    simp [ih hrest]

theorem processChildren_nil_eq (rm : Bool) (p : Int) :
    processChildren rm p [] = .ok [] := rfl

theorem processChildren_cons_eq (rm : Bool) (p : Int) (c : Elem) (rest : List Elem) :
    processChildren rm p (c :: rest) =
      match processChild rm p c with
      | .error s => .error s
      | .ok h =>
        match processChildren rm p rest with
        | .error s => .error s
        | .ok t => .ok (h ++ t) := rfl

theorem processChildren_ok_cons {rm : Bool} {p : Int} {c : Elem} {rest ds : List Elem}
    (h : processChildren rm p (c :: rest) = .ok ds) :
    ∃ hd tl, processChild rm p c = .ok hd ∧ processChildren rm p rest = .ok tl ∧
      ds = hd ++ tl := by
  rw [processChildren_cons_eq] at h
  rcases hpc : processChild rm p c with s | hd
  · rw [hpc] at h; exact absurd h (by simp)
  · rw [hpc] at h
    rcases hrest : processChildren rm p rest with s | tl
    · rw [hrest] at h; exact absurd h (by simp)
    · rw [hrest] at h
      simp only [Except.ok.injEq] at h
      exact ⟨hd, tl, rfl, rfl, h.symm⟩

theorem processChild_ok {rm : Bool} {p : Int} {c : Elem} {hd : List Elem}
    (h : processChild rm p c = .ok hd) :
    ∃ cat tg, classify c.tag = some (cat, tg) ∧
      ((formatElem rm p (setTag tg c) = none ∧ hd = []) ∨
        (∃ c', formatElem rm p (setTag tg c) = some c' ∧ hd = [c'])) := by
  rw [processChild] at h
  rcases hcl : classify c.tag with _ | ⟨cat, tg⟩
  · rw [hcl] at h; exact absurd h (by simp)
  · simp only [hcl] at h
    refine ⟨cat, tg, rfl, ?_⟩
    rcases hfe : formatElem rm p (setTag tg c) with _ | c'
    · rw [hfe] at h
      simp only [Except.ok.injEq] at h
      exact Or.inl ⟨rfl, h.symm⟩
    · rw [hfe] at h
      simp only [Except.ok.injEq] at h
      exact Or.inr ⟨c', rfl, h.symm⟩

theorem NPif_setTag {rm : Bool} {t : Str} {e : Elem} (h : NPif rm e) :
    NPif rm (setTag t e) := by
  intro hrm
  match e with
  | .mk t' a x cs tl =>
    cases h hrm with
    | mk hne hnpl => exact .mk hne hnpl

/-- The retag performed by `_iter` relates the child to its retagged
form. -/
theorem setTag_RRel {c : Elem} {cat tg : Str} (hcl : classify c.tag = some (cat, tg)) :
    ERel textEquiv true c (setTag tg c) := by
  match c with
  | .mk t a x cs tl =>
    simp only [Elem.tag] at hcl
    exact .mk (fun _ => Or.inr ⟨cat, hcl⟩) (fun hb => Bool.noConfusion hb)
      (textEquiv_refl x) (ERelL_refl textEquiv_refl _ cs)

/-- One division's classify-and-format pass, on a nothing-prunable child
list, keeps every child and yields a word-equivalent, canonically
retagged list. -/
theorem processChildren_RRel {rm : Bool} {p : Int} (hp : -1 ≤ p) :
    ∀ {cs es : List Elem}, NPLif rm cs → processChildren rm p cs = .ok es →
      ERelL textEquiv true cs es ∧ NPLif rm es := by
  intro cs
  induction cs with
  | nil =>
    intro es _ h
    rw [processChildren_nil_eq] at h
    simp only [Except.ok.injEq] at h
    rw [← h]
    exact ⟨.nil, fun _ => .nil⟩
  | cons c rest ih =>
    intro es hnp h
    obtain ⟨hnpc, hnprest⟩ := NPLif_cons hnp
    obtain ⟨hd, tl, hpc, hrest, hes⟩ := processChildren_ok_cons h
    obtain ⟨cat, tg, hcl, hcases⟩ := processChild_ok hpc
    have hkeep : formatElem rm p (setTag tg c) = some (formatBody rm p (setTag tg c)) :=
      formatElem_keep (NPif_setTag hnpc)
    rcases hcases with ⟨hnone, -⟩ | ⟨c', hsome, hhd⟩
    · rw [hkeep] at hnone
      exact absurd hnone (by simp)
    · rw [hkeep] at hsome
      simp only [Option.some.injEq] at hsome
      obtain ⟨hreltl, hnptl⟩ := ih hnprest hrest
      have hrel : ERel textEquiv true c c' := by
        rw [← hsome]
        exact ERel_trans_equiv (setTag_RRel hcl)
          (formatBody_RRel hp (NPif_setTag hnpc))
      have hnpc' : NPif rm c' := formatElem_NPif (hsome ▸ hkeep)
      subst hhd
      subst hes
      refine ⟨.cons hrel hreltl, ?_⟩
      intro hrm
      exact .cons (hnpc' hrm) (hnptl hrm)

/-- The walk of a nothing-prunable tree succeeds into a word-equivalent,
canonically retagged, still nothing-prunable tree with the same top-level
tag, attributes, text and tail. -/
theorem walkRRel_aux : ∀ n : Nat,
    (∀ e : Elem, esize e ≤ n → ∀ (rm : Bool) (p : Int) (d : Elem), -1 ≤ p → NPif rm e →
      walk rm p e = .ok d → ERel textEquiv false e d ∧ NPif rm d) ∧
    (∀ cs : List Elem, esizeL cs ≤ n → ∀ (rm : Bool) (p : Int) (ds : List Elem),
      -1 ≤ p → NPLif rm cs → walkList rm p cs = .ok ds →
        ERelL textEquiv false cs ds ∧ NPLif rm ds) := by
  intro n
  induction n with
  | zero =>
    constructor
    · intro e he
      exact absurd he (by have := esize_pos e; omega)
    · intro cs hcs rm p ds hp hnp h
      match cs with
      | [] =>
        rw [walkList_ok_nil h]
        exact ⟨.nil, fun _ => .nil⟩
      | c :: rest =>
        rw [esizeL_cons] at hcs
        exact absurd hcs (by have := esize_pos c; omega)
  | succ n ih =>
    constructor
    · intro e he rm p d hp hnp hwalk
      obtain ⟨ms, cs', hds, hwl, hd⟩ := walk_ok_shape hwalk
      match e, he, hnp, hds, hd with
      | .mk t a x cs tl, he, hnp, hds, hd =>
        rw [esize_mk] at he
        simp only [Elem.tag, Elem.attrib, Elem.text, Elem.tailText] at hd
        have hnpl : NPLif rm cs := by
          intro hrm
          cases hnp hrm with
          | mk _ h => exact h
        by_cases hdiv : t = divTag
        · rw [divStep, if_pos (by simpa [Elem.tag] using hdiv)] at hds
          simp only [Elem.children] at hds
          obtain ⟨hrel1, hnpms⟩ := processChildren_RRel hp hnpl hds
          have hsize : esizeL ms ≤ n := by
            have := esizeL_processChildren rm p cs ms hds
            omega
          obtain ⟨hrel2, hnpcs'⟩ := ih.2 ms hsize rm p cs' hp hnpms hwl
          have hone : ERelL textEquiv true cs cs' :=
            ERelL_trans_equiv hrel1 (ERelL_of_false hrel2)
          subst hd
          constructor
          · refine .mk (fun _ => tagRel_refl t) (fun _ => rfl) (textEquiv_refl x) ?_
            have hflag : decide (t = divTag) = true := by simp [hdiv]
            rw [hflag]
            exact hone
          · intro hrm
            refine .mk ?_ (hnpcs' hrm)
            intro hx
            cases hnp hrm with
            | mk hne _ =>
              have hcs : cs ≠ [] := hne hx
              have hlen1 : ms.length = cs.length := ERelL_length _ _ hrel1
              have hlen2 : cs'.length = ms.length := ERelL_length _ _ hrel2
              intro hnil
              apply hcs
              have : cs.length = 0 := by
                rw [← hlen1, ← hlen2, hnil]
                rfl
              exact List.length_eq_zero.mp this
        · rw [divStep, if_neg (by simpa [Elem.tag] using hdiv)] at hds
          simp only [Elem.children, Except.ok.injEq] at hds
          subst hds
          obtain ⟨hrel2, hnpcs'⟩ := ih.2 cs (by omega) rm p cs' hp hnpl hwl
          subst hd
          constructor
          · refine .mk (fun _ => tagRel_refl t) (fun _ => rfl) (textEquiv_refl x) ?_
            have hflag : decide (t = divTag) = false := by simp [hdiv]
            rw [hflag]
            exact hrel2
          · intro hrm
            refine .mk ?_ (hnpcs' hrm)
            intro hx
            cases hnp hrm with
            | mk hne _ =>
              have hcs : cs ≠ [] := hne hx
              have hlen2 : cs'.length = cs.length := ERelL_length _ _ hrel2
              intro hnil
              apply hcs
              have : cs.length = 0 := by rw [← hlen2, hnil]; rfl
              exact List.length_eq_zero.mp this
    · intro cs hcs rm p ds hp hnp h
      match cs with
      | [] =>
        rw [walkList_ok_nil h]
        exact ⟨.nil, fun _ => .nil⟩
      | c :: rest =>
        rw [esizeL_cons] at hcs
        obtain ⟨hnpc, hnprest⟩ := NPLif_cons hnp
        obtain ⟨c', rest', hwc, hwrest, hds⟩ := walkList_ok_cons h
        obtain ⟨hrelc, hnpc'⟩ := ih.1 c (by have := esize_pos c; omega) rm p c' hp hnpc hwc
        obtain ⟨hrelrest, hnprest'⟩ := ih.2 rest (by omega) rm p rest' hp hnprest hwrest
        subst hds
        refine ⟨.cons hrelc hrelrest, ?_⟩
        intro hrm
        exact .cons (hnpc' hrm) (hnprest' hrm)

theorem walk_RRel {rm : Bool} {p : Int} {e d : Elem} (hp : -1 ≤ p) (hnp : NPif rm e)
    (h : walk rm p e = .ok d) : ERel textEquiv false e d ∧ NPif rm d :=
  (walkRRel_aux (esize e)).1 e (le_refl _) rm p d hp hnp h

theorem walkList_RRel {rm : Bool} {p : Int} {cs ds : List Elem} (hp : -1 ≤ p)
    (hnp : NPLif rm cs) (h : walkList rm p cs = .ok ds) :
    ERelL textEquiv false cs ds ∧ NPLif rm ds :=
  (walkRRel_aux (esizeL cs)).2 cs (le_refl _) rm p ds hp hnp h

/-- Retagging two equal-texts-related division children to the same
canonical tag makes them related with equal tags everywhere. -/
theorem setTag_congr {c₁ c₂ : Elem} {tg : Str} (hc₁ : c₁.tag ≠ divTag)
    (htg : tg ≠ divTag) (h : ERel textEq true c₁ c₂) :
    ERel textEq false (setTag tg c₁) (setTag tg c₂) := by
  cases h with
  | @mk _ t₁ t₂ a x₁ x₂ cs₁ cs₂ tl htag1 htag2 htx hch =>
    simp only [Elem.tag] at hc₁
    refine .mk (fun hb => Bool.noConfusion hb) (fun _ => rfl) htx ?_
    have h1 : decide (t₁ = divTag) = false := by simp [hc₁]
    have h2 : decide (tg = divTag) = false := by simp [htg]
    rw [h1] at hch
    rw [h2]
    exact hch

/-- A second classify-and-format pass over an equal-texts-related child
list retraces the first: same classifications, same prune decisions,
equal-texts-related results. -/
theorem processChildren_retrace {rm : Bool} {p : Int} (hp : -1 ≤ p) :
    ∀ {cs₁ cs₂ ms : List Elem}, ERelL textEq true cs₁ cs₂ →
      processChildren rm p cs₁ = .ok ms →
      ∃ ms₂, processChildren rm p cs₂ = .ok ms₂ ∧ ERelL textEq false ms ms₂ := by
  intro cs₁
  induction cs₁ with
  | nil =>
    intro cs₂ ms hrel h
    cases hrel
    rw [processChildren_nil_eq] at h
    simp only [Except.ok.injEq] at h
    exact ⟨[], rfl, by rw [← h]; exact .nil⟩
  | cons c₁ rest₁ ih =>
    intro cs₂ ms hrel h
    cases hrel with
    | @cons _ _ c₂ _ rest₂ hc hrest =>
      obtain ⟨hd, tl, hpc, hpcr, hms⟩ := processChildren_ok_cons h
      obtain ⟨cat, tg, hcl, hcases⟩ := processChild_ok hpc
      have htags : ERel textEq true c₁ c₂ := hc
      have htagrel : tagRel c₁.tag c₂.tag := by
        cases htags with
        | mk htag1 _ _ _ => simpa [Elem.tag] using htag1 rfl
      have hcl₂ : classify c₂.tag = some (cat, tg) := cls_of_tagRel htagrel hcl
      have hrelset : ERel textEq false (setTag tg c₁) (setTag tg c₂) :=
        setTag_congr (cls_in_ne_div hcl) (cls_out_ne_div hcl) hc
      have hopt := @formatElem_congr _ rm _ hp _ _ (ERel_of_textEq hrelset)
      obtain ⟨tl₂, hpcr₂, hreltl⟩ := ih hrest hpcr
      rcases hcases with ⟨hnone, hhd⟩ | ⟨c', hsome, hhd⟩
      · rw [hnone] at hopt
        rcases hfe₂ : formatElem rm p (setTag tg c₂) with _ | c₂'
        · refine ⟨tl₂, ?_, ?_⟩
          · rw [processChildren_cons_eq, processChild]
            simp only [hcl₂, hfe₂, hpcr₂, List.nil_append]
          · rw [hms, hhd]
            simpa using hreltl
        · rw [hfe₂] at hopt
          exact hopt.elim
      · rw [hsome] at hopt
        rcases hfe₂ : formatElem rm p (setTag tg c₂) with _ | c₂'
        · rw [hfe₂] at hopt
          exact hopt.elim
        · rw [hfe₂] at hopt
          refine ⟨c₂' :: tl₂, ?_, ?_⟩
          · rw [processChildren_cons_eq, processChild]
            simp only [hcl₂, hfe₂, hpcr₂, List.cons_append, List.nil_append]
          · rw [hms, hhd]
            exact .cons hopt hreltl

/-- A walk over an equal-texts-related tree retraces the original walk and
ends in the *same* result tree: remaining tag differences sit exactly at
division children, where the walk canonicalizes both sides identically. -/
theorem walkRetrace_aux : ∀ n : Nat,
    (∀ e : Elem, esize e ≤ n → ∀ (rm : Bool) (p : Int) (f d : Elem), -1 ≤ p →
      ERel textEq false e f → walk rm p e = .ok d → walk rm p f = .ok d) ∧
    (∀ cs : List Elem, esizeL cs ≤ n → ∀ (rm : Bool) (p : Int) (fs ds : List Elem),
      -1 ≤ p → ERelL textEq false cs fs → walkList rm p cs = .ok ds →
        walkList rm p fs = .ok ds) := by
  intro n
  induction n with
  | zero =>
    constructor
    · intro e he
      exact absurd he (by have := esize_pos e; omega)
    · intro cs hcs rm p fs ds hp hrel h
      cases hrel with
      | nil => exact h
      | @cons b c₁ c₂ rest₁ rest₂ hc hrest =>
        rw [esizeL_cons] at hcs
        exact absurd hcs (by have := esize_pos c₁; omega)
  | succ n ih =>
    constructor
    · intro e he rm p f d hp hrel hwalk
      obtain ⟨ms, cs', hds, hwl, hd⟩ := walk_ok_shape hwalk
      cases hrel with
      | @mk _ t₁ t₂ a x₁ x₂ cs₁ cs₂ tl htag1 htag2 htx hch =>
        have ht : t₂ = t₁ := htag2 rfl
        have hx : x₂ = x₁ := htx
        subst ht
        subst hx
        rw [esize_mk] at he
        simp only [Elem.tag, Elem.attrib, Elem.text, Elem.tailText, Elem.children]
          at hds hd
        by_cases hdiv : t₂ = divTag
        · rw [divStep, if_pos (by simpa [Elem.tag] using hdiv)] at hds
          simp only [Elem.children] at hds
          have hflag : decide (t₂ = divTag) = true := by simp [hdiv]
          rw [hflag] at hch
          obtain ⟨ms₂, hds₂, hrelms⟩ := processChildren_retrace hp hch hds
          have hsize : esizeL ms ≤ n := by
            have := esizeL_processChildren rm p cs₁ ms hds
            omega
          have hwl₂ : walkList rm p ms₂ = .ok cs' := ih.2 ms hsize rm p ms₂ cs' hp hrelms hwl
          rw [walk_eq]
          have hdsf : divStep rm p (.mk t₂ a x₂ cs₂ tl) = .ok ms₂ := by
            rw [divStep, if_pos (by simpa [Elem.tag] using hdiv)]
            simpa only [Elem.children] using hds₂
          simp only [hdsf, hwl₂, hd]
          simp only [Elem.tag, Elem.attrib, Elem.text, Elem.tailText]
        · rw [divStep, if_neg (by simpa [Elem.tag] using hdiv)] at hds
          simp only [Elem.children, Except.ok.injEq] at hds
          subst hds
          have hflag : decide (t₂ = divTag) = false := by simp [hdiv]
          rw [hflag] at hch
          have hwl₂ : walkList rm p cs₂ = .ok cs' := ih.2 cs₁ (by omega) rm p cs₂ cs' hp hch hwl
          rw [walk_eq]
          have hdsf : divStep rm p (.mk t₂ a x₂ cs₂ tl) = .ok cs₂ := by
            rw [divStep, if_neg (by simpa [Elem.tag] using hdiv)]
            simp only [Elem.children]
          simp only [hdsf, hwl₂, hd]
          simp only [Elem.tag, Elem.attrib, Elem.text, Elem.tailText]
    · intro cs hcs rm p fs ds hp hrel h
      cases hrel with
      | nil => exact h
      | @cons _ c₁ c₂ rest₁ rest₂ hc hrest =>
        rw [esizeL_cons] at hcs
        obtain ⟨c', rest', hwc, hwrest, hds⟩ := walkList_ok_cons h
        have hwc₂ : walk rm p c₂ = .ok c' :=
          ih.1 c₁ (by have := esize_pos c₁; omega) rm p c₂ c' hp hc hwc
        have hwrest₂ : walkList rm p rest₂ = .ok rest' :=
          ih.2 rest₁ (by omega) rm p rest₂ rest' hp hrest hwrest
        rw [walkList_cons]
        simp only [hwc₂, hwrest₂, hds]

theorem walk_retrace {rm : Bool} {p : Int} {e f d : Elem} (hp : -1 ≤ p)
    (hrel : ERel textEq false e f) (h : walk rm p e = .ok d) : walk rm p f = .ok d :=
  (walkRetrace_aux (esize e)).1 e (le_refl _) rm p f d hp hrel h

theorem walkList_retrace {rm : Bool} {p : Int} {cs fs ds : List Elem} (hp : -1 ≤ p)
    (hrel : ERelL textEq false cs fs) (h : walkList rm p cs = .ok ds) :
    walkList rm p fs = .ok ds :=
  (walkRetrace_aux (esizeL cs)).2 cs (le_refl _) rm p fs ds hp hrel h

theorem formatBody_tag (rm : Bool) (p : Int) (e : Elem) :
    (formatBody rm p e).tag = e.tag := by
  rw [formatBody_eq]
  rfl

theorem setTag_self {t : Str} {e : Elem} (h : e.tag = t) : setTag t e = e := by
  match e with
  | .mk t' a x cs tl =>
    simp only [Elem.tag] at h
    rw [setTag, h]

theorem setTag_tag (t : Str) (e : Elem) : (setTag t e).tag = t := by
  match e with
  | .mk t' a x cs tl => rw [setTag]; rfl

theorem walk_ok_tag {rm : Bool} {p : Int} {e d : Elem} (h : walk rm p e = .ok d) :
    d.tag = e.tag := by
  obtain ⟨cs, cs', _, _, hd⟩ := walk_ok_shape h
  rw [hd]
  rfl

theorem processChildren_NPLif {rm : Bool} {p : Int} :
    ∀ {cs ms : List Elem}, processChildren rm p cs = .ok ms → NPLif rm ms := by
  intro cs
  induction cs with
  | nil =>
    intro ms h
    rw [processChildren_nil_eq] at h
    simp only [Except.ok.injEq] at h
    rw [← h]
    exact fun _ => .nil
  | cons c rest ih =>
    intro ms h
    obtain ⟨hd, tl, hpc, hpcr, hms⟩ := processChildren_ok_cons h
    obtain ⟨cat, tg, hcl, hcases⟩ := processChild_ok hpc
    have htl := ih hpcr
    subst hms
    rcases hcases with ⟨-, hhd⟩ | ⟨c', hsome, hhd⟩
    · subst hhd
      simpa using htl
    · subst hhd
      intro hrm
      exact .cons (formatElem_NPif hsome hrm) (htl hrm)

/-- Every element of a successful division pass is canonically tagged,
format-stable and nothing-prunable. -/
theorem processChildren_out {rm : Bool} {p : Int} (hp : -1 ≤ p) :
    ∀ {cs ms : List Elem}, processChildren rm p cs = .ok ms →
      ∀ m ∈ ms, (∃ cat, classify m.tag = some (cat, m.tag)) ∧
        formatElem rm p m = some m ∧ NPif rm m := by
  intro cs
  induction cs with
  | nil =>
    intro ms h
    rw [processChildren_nil_eq] at h
    simp only [Except.ok.injEq] at h
    rw [← h]
    intro m hm
    exact absurd hm (List.not_mem_nil m)
  | cons c rest ih =>
    intro ms h m hm
    obtain ⟨hd, tl, hpc, hpcr, hms⟩ := processChildren_ok_cons h
    obtain ⟨cat, tg, hcl, hcases⟩ := processChild_ok hpc
    subst hms
    rcases hcases with ⟨-, hhd⟩ | ⟨c', hsome, hhd⟩
    · subst hhd
      exact ih hpcr m (by simpa using hm)
    · subst hhd
      rcases List.mem_append.mp hm with hmc | hmtl
      · have hmeq : m = c' := by simpa using hmc
        subst hmeq
        have htag : m.tag = tg := by
          obtain ⟨hbody, -⟩ := formatElem_some_eq hsome
          rw [hbody, formatBody_tag, setTag_tag]
        refine ⟨⟨cat, by rw [htag]; exact cls_stable hcl⟩, ?_, formatElem_NPif hsome⟩
        exact formatElem_idem hp hsome
      · exact ih hpcr m hmtl

/-- Re-classifying and re-formatting the walked children of a division
retraces the first pass up to equal texts. -/
theorem run2_processChildren {rm : Bool} {p : Int} (hp : -1 ≤ p) :
    ∀ {ms cs' : List Elem}, walkList rm p ms = .ok cs' →
      (∀ m ∈ ms, (∃ cat, classify m.tag = some (cat, m.tag)) ∧
        formatElem rm p m = some m ∧ NPif rm m) →
      ∃ ms₂, processChildren rm p cs' = .ok ms₂ ∧ ERelL textEq false ms ms₂ := by
  intro ms
  induction ms with
  | nil =>
    intro cs' h _
    rw [walkList_ok_nil h]
    exact ⟨[], rfl, .nil⟩
  | cons m rest ih =>
    intro cs' h hprops
    obtain ⟨c', rest', hwm, hwrest, hcs'⟩ := walkList_ok_cons h
    obtain ⟨⟨cat, hcl⟩, hstable, hnp⟩ := hprops m (List.mem_cons_self m rest)
    obtain ⟨rel, -⟩ := walk_RRel hp hnp hwm
    have htag : c'.tag = m.tag := walk_ok_tag hwm
    have hcl' : classify c'.tag = some (cat, c'.tag) := by
      rw [htag]
      exact hcl
    have hopt := @formatElem_congr _ rm _ hp _ _ rel
    rw [hstable] at hopt
    rcases hfe : formatElem rm p (setTag c'.tag c') with _ | f
    · rw [setTag_self rfl] at hfe
      rw [hfe] at hopt
      exact hopt.elim
    · rw [setTag_self rfl] at hfe
      rw [hfe] at hopt
      obtain ⟨tl₂, hpcr, hreltl⟩ := ih hwrest
        (fun x hx => hprops x (List.mem_cons_of_mem _ hx))
      refine ⟨f :: tl₂, ?_, ?_⟩
      · subst hcs'
        rw [processChildren_cons_eq, processChild]
        simp only [hcl']
        rw [setTag_self rfl]
        simp only [hfe, hpcr, List.cons_append, List.nil_append]
      · exact .cons hopt hreltl

/-- The walk is idempotent: a second `_format_texts` pass over an already
normalized tree re-runs the same classifications, re-wraps every wrapped
paragraph to itself, prunes nothing, and returns the tree unchanged. -/
theorem walkIdem_aux : ∀ n : Nat,
    (∀ e : Elem, esize e ≤ n → ∀ (rm : Bool) (p : Int) (d : Elem), -1 ≤ p →
      walk rm p e = .ok d → walk rm p d = .ok d) ∧
    (∀ cs : List Elem, esizeL cs ≤ n → ∀ (rm : Bool) (p : Int) (ds : List Elem), -1 ≤ p →
      walkList rm p cs = .ok ds → walkList rm p ds = .ok ds) := by
  intro n
  induction n with
  | zero =>
    constructor
    · intro e he
      exact absurd he (by have := esize_pos e; omega)
    · intro cs hcs rm p ds hp h
      match cs with
      | [] =>
        rw [walkList_ok_nil h]
        exact walkList_nil rm p
      | c :: rest =>
        rw [esizeL_cons] at hcs
        exact absurd hcs (by have := esize_pos c; omega)
  | succ n ih =>
    constructor
    · intro e he rm p d hp hwalk
      obtain ⟨ms, cs', hds, hwl, hd⟩ := walk_ok_shape hwalk
      match e, he, hds, hd with
      | .mk t a x cs tl, he, hds, hd =>
        rw [esize_mk] at he
        simp only [Elem.tag, Elem.attrib, Elem.text, Elem.tailText] at hd
        by_cases hdiv : t = divTag
        · rw [divStep, if_pos (by simpa [Elem.tag] using hdiv)] at hds
          simp only [Elem.children] at hds
          have hprops := processChildren_out hp hds
          obtain ⟨ms₂, hpc₂, hrel₂⟩ := run2_processChildren hp hwl hprops
          have hwl₂ : walkList rm p ms₂ = .ok cs' := walkList_retrace hp hrel₂ hwl
          rw [walk_eq]
          simp only [hd]
          have hdsf : divStep rm p (.mk t a x cs' tl) = .ok ms₂ := by
            rw [divStep, if_pos (by simpa [Elem.tag] using hdiv)]
            simpa only [Elem.children] using hpc₂
          simp only [hdsf, hwl₂]
          simp only [Elem.tag, Elem.attrib, Elem.text, Elem.tailText]
        · rw [divStep, if_neg (by simpa [Elem.tag] using hdiv)] at hds
          simp only [Elem.children, Except.ok.injEq] at hds
          subst hds
          have hwl₂ : walkList rm p cs' = .ok cs' := ih.2 cs (by omega) rm p cs' hp hwl
          rw [walk_eq]
          simp only [hd]
          have hdsf : divStep rm p (.mk t a x cs' tl) = .ok cs' := by
            rw [divStep, if_neg (by simpa [Elem.tag] using hdiv)]
            simp only [Elem.children]
          simp only [hdsf, hwl₂]
          simp only [Elem.tag, Elem.attrib, Elem.text, Elem.tailText]
    · intro cs hcs rm p ds hp h
      match cs with
      | [] =>
        rw [walkList_ok_nil h]
        exact walkList_nil rm p
      | c :: rest =>
        rw [esizeL_cons] at hcs
        obtain ⟨c', rest', hwc, hwrest, hds⟩ := walkList_ok_cons h
        have hwc₂ : walk rm p c' = .ok c' :=
          ih.1 c (by have := esize_pos c; omega) rm p c' hp hwc
        have hwrest₂ : walkList rm p rest' = .ok rest' :=
          ih.2 rest (by omega) rm p rest' hp hwrest
        subst hds
        rw [walkList_cons]
        simp only [hwc₂, hwrest₂]

theorem walkList_idem {rm : Bool} {p : Int} (hp : -1 ≤ p) {cs ds : List Elem}
    (h : walkList rm p cs = .ok ds) : walkList rm p ds = .ok ds :=
  (walkIdem_aux (esizeL cs)).2 cs (le_refl _) rm p ds hp h

/-- **C6.**  Idempotence of the full pipeline: if a run of the
classification-and-formatting pass (`_format_texts`, the formatting core
of `write_tei`) normalizes `t` into `t'`, then a run on the
already-normalized `t'` returns `t'` itself, and hence the serialized
byte output (`etree.tostring` being a function of the tree, modelled by
an arbitrary `ser`) of a run on the normalized tree is the same both
times the pipeline is executed.  The precondition `-1 ≤ padding` says the
interior indent `padding + 2` of every wrapped line is at least one
space (default `padding` is 8). -/
theorem claim_C6 (rm : Bool) (padding : Int) (hp : -1 ≤ padding) (t t' : Elem)
    (hnorm : formatTexts t rm padding = .ok t') :
    formatTexts t' rm padding = .ok t' ∧
      ∀ ser : Elem → List Nat,
        writeTei ser t padding rm = .ok (ser t') ∧
        writeTei ser t' padding rm = .ok (ser t') := by
  have hmain : formatTexts t' rm padding = .ok t' := by
    rw [formatTexts] at hnorm
    rcases hwl : walkList rm padding t.children with s | cs'
    · rw [hwl] at hnorm; exact absurd hnorm (by simp)
    · rw [hwl] at hnorm
      simp only [Except.ok.injEq] at hnorm
      subst hnorm
      have hidem := walkList_idem hp hwl
      rw [formatTexts]
      simp only [Elem.children, hidem]
      simp only [Elem.tag, Elem.attrib, Elem.text, Elem.tailText]
  refine ⟨hmain, fun ser => ⟨?_, ?_⟩⟩
  · rw [writeTei, hnorm]; rfl
  · rw [writeTei, hmain]; rfl

set_option maxRecDepth 4000 in
/-- **C6 witness**: the pipeline with default options (`padding = 8`,
`rm_empty = True`) on a TEI root whose division holds one legacy `u`
element with text `"hi"`; the normalized tree is a fixed point and the
serialized output is stable. -/
theorem claim_C6_witness :
    ∃ t' : Elem,
      formatTexts
        (.mk (TEI_NS ++ "TEI".toList) [] none
          [.mk divTag [] none [.mk ("u".toList) [] (some "hi".toList) [] none] none] none)
        true 8 = .ok t' ∧
      formatTexts t' true 8 = .ok t' ∧
      ∀ ser : Elem → List Nat, writeTei ser t' 8 true = .ok (ser t') := by
  have hcl : classify ['u'] = some (['u'], TEI_NS ++ ['u']) := by decide
  have hndiv1 : ¬ ((TEI_NS ++ ['T', 'E', 'I']) = divTag) := by decide
  have hndiv2 : ¬ ((TEI_NS ++ ['u']) = divTag) := by decide
  have hgate : 0 < (pyStrip ['h', 'i']).length := by decide
  have hfe : formatElem true 8 (.mk (TEI_NS ++ ['u']) [] (some ['h', 'i']) [] none) =
      some (.mk (TEI_NS ++ ['u']) [] (some (formatParagraph ['h', 'i'] 10)) [] none) := by
    rw [formatElem_eq, formatBody_eq]
    simp only [Elem.tag, Elem.attrib, Elem.text, Elem.children, Elem.tailText]
    rw [formatChildren_nil, textStep, if_pos hgate]
    simp
  have hnorm : formatTexts
      (.mk (TEI_NS ++ "TEI".toList) [] none
        [.mk divTag [] none [.mk ("u".toList) [] (some "hi".toList) [] none] none] none)
      true 8 =
      .ok (.mk (TEI_NS ++ "TEI".toList) [] none
        [.mk divTag [] none
          [.mk (TEI_NS ++ "u".toList) [] (some (formatParagraph "hi".toList 10)) [] none]
          none] none) := by
    simp [formatTexts, walkList_cons, walkList_nil, walk_eq, divStep, processChildren_cons_eq,
      processChildren_nil_eq, processChild, Elem.children, Elem.tag, Elem.attrib, Elem.text,
      Elem.tailText, hcl, hndiv1, hndiv2, hfe, setTag]
  refine ⟨_, hnorm, ?_, ?_⟩
  · exact (claim_C6 true 8 (by norm_num) _ _ hnorm).1
  · intro ser
    exact ((claim_C6 true 8 (by norm_num) _ _ hnorm).2 ser).2

end Pysuca
